import Mathlib

/-!
Verification of the certified-collections library: the hash-tree (Merkle)
algebra, the sorted authenticated store underlying `Map`, the `Seq` and
`Paged` collections, and the `Group`/`Ray` composition layer.

The `hashtree`, `rbtree`, `seq` and `as_hash_tree` modules of the
repository are not present in the source snapshot (only their callers
are), so they are modelled from the specification; the modules that are
present (`map.rs`, `paged.rs`, `group.rs`, `group/builder.rs`,
`label.rs`) are embedded faithfully.
-/

namespace CertifiedVars

/-- Modelled from the spec: the `hashtree` module is absent from the source
snapshot.  The spec demands domain-separated hashing (distinct constants for
Empty/Leaf/Labeled/Fork so that no two distinct tree shapes can collide by
construction ambiguity), so hashes are modelled as the free algebra of the
four domain-separated combinators, which is collision-free by construction. -/
inductive Hash : Type where
  | empty : Hash
  | leaf (b : List Nat) : Hash
  | labeled (l : List Nat) (h : Hash) : Hash
  | fork (l r : Hash) : Hash
deriving DecidableEq

/-- Modelled from the spec: the recursive proof structure of §3.  `Pruned`
carries the asserted hash of a withheld branch. -/
inductive HashTree : Type where
  | Empty : HashTree
  | Leaf (b : List Nat) : HashTree
  | Labeled (l : List Nat) (t : HashTree) : HashTree
  | Fork (l r : HashTree) : HashTree
  | Pruned (h : Hash) : HashTree
deriving DecidableEq

/-- Modelled from the spec: `fork_hash` combines two child hashes with the
Fork domain-separation constant. -/
def fork_hash (l r : Hash) : Hash := Hash.fork l r

/-- Modelled from the spec: `labeled_hash` combines a label and a child hash
with the Labeled domain-separation constant. -/
def labeled_hash (l : List Nat) (h : Hash) : Hash := Hash.labeled l h

/-- Modelled from the spec: `reconstruct` folds a `HashTree` to its root hash
by the recursive rule of §3; a `Pruned` node contributes its hash directly. -/
def HashTree.reconstruct : HashTree → Hash
  | .Empty => Hash.empty
  | .Leaf b => Hash.leaf b
  | .Labeled l t => labeled_hash l t.reconstruct
  | .Fork l r => fork_hash l.reconstruct r.reconstruct
  | .Pruned h => h

/-- Modelled from the spec: the certifiable-leaf contract of §6 —
`root_hash` and `as_hash_tree`, with the §3 invariant that the full hash
tree reconstructs to the root hash. -/
class AsHashTree (V : Type) where
  as_hash_tree : V → HashTree
  root_hash : V → Hash
  reconstruct_as_hash_tree : ∀ v : V, (as_hash_tree v).reconstruct = root_hash v

/-- Modelled from the spec: the `Label` contract of §6 — every key is
representable as a byte-string label whose ordering agrees with the key
ordering. -/
class LabelOf (K : Type) where
  as_label : K → List Nat

/-- Big-endian 4-byte encoding of a page number / integer key. -/
def be32 (n : Nat) : List Nat :=
  [n / 2 ^ 24 % 256, n / 2 ^ 16 % 256, n / 2 ^ 8 % 256, n % 256]

instance : LabelOf Nat := ⟨be32⟩

/-- Modelled from the spec: a scalar numeric leaf (such as the `i8`/`u32`
leaves used with `Group`) certifies as a raw `Leaf` of its big-endian
bytes. -/
instance : AsHashTree Nat where
  as_hash_tree n := HashTree.Leaf (be32 n)
  root_hash n := Hash.leaf (be32 n)
  reconstruct_as_hash_tree _ := rfl

section RbTree

variable {K V R P : Type} [LinearOrder K]

/-- Modelled from the spec: the `rbtree` module is absent from the source
snapshot.  The spec (§3) requires the balanced tree's shape to be a
deterministic function of its key set only, so the tree state is modelled by
its canonical sorted-entries abstraction (the same ordered-entries view the
spec uses at the serialization boundary): insertion places the entry at its
sorted position and returns the previous value for the key, if any. -/
def rbInsert (k : K) (v : V) : List (K × V) → List (K × V) × Option V
  | [] => ([(k, v)], none)
  | (k', v') :: rest =>
    if k < k' then ((k, v) :: (k', v') :: rest, none)
    else if k = k' then ((k, v) :: rest, some v')
    else
      let (l, old) := rbInsert k v rest
      ((k', v') :: l, old)

/-- Modelled from the spec: point lookup in the sorted store. -/
def rbGet (k : K) : List (K × V) → Option V
  | [] => none
  | (k', v') :: rest => if k = k' then some v' else rbGet k rest

/-- Modelled from the spec: deletion; returns the removed entry. -/
def rbDelete (k : K) : List (K × V) → List (K × V) × Option (K × V)
  | [] => ([], none)
  | (k', v') :: rest =>
    if k = k' then (rest, some (k', v'))
    else
      let (l, old) := rbDelete k rest
      ((k', v') :: l, old)

/-- Modelled from the spec: `modify(key, f)` applies `f` to the existing
value in place if present, else no-op; the boolean reports whether `f` ran
(in the source this is observed by the closure consuming its captures). -/
def rbModify (k : K) (f : V → V) : List (K × V) → List (K × V) × Bool
  | [] => ([], false)
  | (k', v') :: rest =>
    if k = k' then ((k', f v') :: rest, true)
    else
      let (l, hit) := rbModify k f rest
      ((k', v') :: l, hit)

/-- Modelled from the spec: `max_entry_with_prefix` — the entry with the
largest key whose prefix projection (`borrow`) equals `p`; on the sorted
store this is the last matching entry. -/
def rbMaxEntry (borrow : K → P) (p : P) [DecidableEq P] : List (K × V) → Option (K × V)
  | [] => none
  | (k', v') :: rest =>
    match rbMaxEntry borrow p rest with
    | some e => some e
    | none => if borrow k' = p then some (k', v') else none

/-- Modelled from the spec: `modify_max_with_prefix(prefix, f)` — locate the
entry with the largest key whose prefix projection equals `p`, apply `f`
(which may update the value and returns a result), and return `f`'s result;
`none` when no key shares the prefix. -/
def rbModifyMax (borrow : K → P) (p : P) [DecidableEq P] (f : K → V → V × R) :
    List (K × V) → Option (List (K × V) × R)
  | [] => none
  | (k', v') :: rest =>
    match rbModifyMax borrow p f rest with
    | some (l, r) => some ((k', v') :: l, r)
    | none =>
      if borrow k' = p then
        let (v'', r) := f k' v'
        some ((k', v'') :: rest, r)
      else none

variable [LabelOf K] [AsHashTree V]

/-- Modelled from the spec: the full hash tree of the store — every entry
contributes `Labeled(label(k), as_hash_tree(v))`, entries combined by
ordered `Fork`s, the empty store hashing as `Empty`. -/
def rbAsHashTree : List (K × V) → HashTree
  | [] => HashTree.Empty
  | [(k, v)] => HashTree.Labeled (LabelOf.as_label k) (AsHashTree.as_hash_tree v)
  | (k, v) :: rest =>
    HashTree.Fork (HashTree.Labeled (LabelOf.as_label k) (AsHashTree.as_hash_tree v))
      (rbAsHashTree rest)

/-- Modelled from the spec: the root hash of the store is the reconstruction
of its full hash tree. -/
def rbRootHash (l : List (K × V)) : Hash := (rbAsHashTree l).reconstruct

/-- Modelled from the spec: `witness(key)` — same shape as the full hash
tree, but every entry other than the target is emitted as `Pruned` of its
exact subtree hash; the target entry is fully expanded. -/
def rbWitness (k : K) : List (K × V) → HashTree
  | [] => HashTree.Empty
  | [(k', v')] =>
    if k = k' then HashTree.Labeled (LabelOf.as_label k') (AsHashTree.as_hash_tree v')
    else HashTree.Pruned (labeled_hash (LabelOf.as_label k')
      (AsHashTree.root_hash v'))
  | (k', v') :: rest =>
    HashTree.Fork
      (if k = k' then HashTree.Labeled (LabelOf.as_label k') (AsHashTree.as_hash_tree v')
       else HashTree.Pruned (labeled_hash (LabelOf.as_label k')
         (AsHashTree.root_hash v')))
      (rbWitness k rest)

end RbTree

/-- Modelled from the spec: `Seq` (`collections/seq.rs` is absent from the
source snapshot) — an ordered, append-only sequence whose items are
addressed by position. -/
structure Seq (V : Type) where
  items : List V
deriving DecidableEq

namespace Seq

/-- Modelled from the spec: the empty sequence. -/
def new {V : Type} : Seq V := ⟨[]⟩

/-- Modelled from the spec: `append` extends the sequence by one item at the
next sequential index; it never reorders or removes existing entries. -/
def append {V : Type} (s : Seq V) (v : V) : Seq V := ⟨s.items ++ [v]⟩

/-- Modelled from the spec: the number of items in the sequence. -/
def len {V : Type} (s : Seq V) : Nat := s.items.length

end Seq

/-- Modelled from the spec: items of a `Seq` are addressed by a big-endian
fixed-width index key; each contributes a `Labeled` node, combined by
ordered `Fork`s exactly like the store underneath. -/
def seqAsHashTreeAux {V : Type} [AsHashTree V] : Nat → List V → HashTree
  | _, [] => HashTree.Empty
  | i, [v] => HashTree.Labeled (be32 i) (AsHashTree.as_hash_tree v)
  | i, v :: rest =>
    HashTree.Fork (HashTree.Labeled (be32 i) (AsHashTree.as_hash_tree v))
      (seqAsHashTreeAux (i + 1) rest)

instance {V : Type} [AsHashTree V] : AsHashTree (Seq V) where
  as_hash_tree s := seqAsHashTreeAux 0 s.items
  root_hash s := (seqAsHashTreeAux 0 s.items).reconstruct
  reconstruct_as_hash_tree _ := rfl

/-- `Map` (from `map.rs`): a thin typed wrapper over the balanced tree. -/
structure Map (K V : Type) where
  inner : List (K × V)
deriving DecidableEq

namespace Map

variable {K V : Type} [LinearOrder K]

/-- `Map::new` (from `map.rs`): the empty map. -/
def new : Map K V := ⟨[]⟩

/-- `Map::insert` (from `map.rs`, lines 50–52): delegates to the tree's
insert; returns the new map and the previous value for the key, if any. -/
def insert (m : Map K V) (k : K) (v : V) : Map K V × Option V :=
  let (l, old) := rbInsert k v m.inner
  (⟨l⟩, old)

/-- `Map::remove` (from `map.rs`, lines 57–59): delegates to the tree's
delete, keeping only the removed value. -/
def remove (m : Map K V) (k : K) : Map K V × Option V :=
  let (l, old) := rbDelete k m.inner
  (⟨l⟩, old.map (·.2))

/-- `Map::get` (from `map.rs`, lines 74–76): point lookup. -/
def get (m : Map K V) (k : K) : Option V :=
  rbGet k m.inner

/-- `Map::append_deep` (from `map.rs`, lines 88–100): run `modify` with a
closure appending to the existing `Seq`; if the closure never consumed the
item (the key was absent), insert a fresh singleton `Seq`. -/
def append_deep (m : Map K (Seq V)) (k : K) (v : V) : Map K (Seq V) :=
  let (l, hit) := rbModify k (fun s => s.append v) m.inner
  if hit then ⟨l⟩
  else ⟨(rbInsert k (Seq.new.append v) m.inner).1⟩

variable [LabelOf K] [AsHashTree V]

/-- The map's root hash: the reconstruction of its full hash tree (the
`as_hash_tree` impl for `Map` lives in the absent `as_hash_tree` module and
is modelled from the spec). -/
def root_hash (m : Map K V) : Hash := rbRootHash m.inner

/-- The map's full, unpruned hash tree (modelled from the spec, as for
`root_hash`). -/
def as_hash_tree (m : Map K V) : HashTree := rbAsHashTree m.inner

/-- `Map::witness` (modelled from the spec, §4.2): a hash tree revealing the
entry at `k` with every other branch pruned to its exact hash. -/
def witness (m : Map K V) (k : K) : HashTree := rbWitness k m.inner

end Map

instance {K V : Type} [LinearOrder K] [LabelOf K] [AsHashTree V] :
    AsHashTree (Map K V) where
  as_hash_tree := Map.as_hash_tree
  root_hash := Map.root_hash
  reconstruct_as_hash_tree _ := rfl

/-- `PagedKey` (from `paged.rs`, lines 12–16): a composite key — the logical
key plus a page number.  The derived ordering is lexicographic on
`(key, page)`; the source stores the page as a `u32` (big-endian in the
label), modelled as `Nat` since no claim exercises 2^32 pages. -/
structure PagedKey (K : Type) where
  key : K
  page : Nat
deriving DecidableEq

theorem PagedKey.toLex_injective {K : Type} :
    Function.Injective (fun p : PagedKey K => toLex (p.key, p.page)) := by
  rintro ⟨k₁, p₁⟩ ⟨k₂, p₂⟩ h
  simpa [Prod.ext_iff] using h

instance {K : Type} [LinearOrder K] : LinearOrder (PagedKey K) :=
  LinearOrder.lift' (fun p : PagedKey K => toLex (p.key, p.page))
    PagedKey.toLex_injective

/-- `PagedKey::as_label` (from `paged.rs`, lines 18–25): the logical key's
label followed by the big-endian bytes of the page number. -/
instance {K : Type} [LabelOf K] : LabelOf (PagedKey K) :=
  ⟨fun p => LabelOf.as_label p.key ++ be32 p.page⟩

/-- `Paged` (from `paged.rs`, lines 7–10): a map from composite page keys to
fixed-capacity pages. -/
structure Paged (K V : Type) (S : Nat) where
  data : Map (PagedKey K) (Seq V)
deriving DecidableEq

namespace Paged

variable {K V : Type} {S : Nat} [LinearOrder K]

/-- `Paged::new` (from `paged.rs`, lines 43–45). -/
def new : Paged K V S := ⟨Map.new⟩

/-- `Paged::insert` (from `paged.rs`, lines 47–67): `modify_max_with_prefix`
on the logical key — if the located page is full return `some (page + 1)`
without touching it, else append the item and return `none`; when no page
matched at all the result defaults to allocating page 0; finally, when a
page number came out, insert a fresh singleton page under it. -/
def insert (t : Paged K V S) (key : K) (item : V) : Paged K V S :=
  let step := rbModifyMax PagedKey.key key
    (fun k seq =>
      if seq.len = S then (seq, some (k.page + 1))
      else (seq.append item, none))
    t.data.inner
  match step with
  | none => ⟨⟨(rbInsert ⟨key, 0⟩ (Seq.new.append item) t.data.inner).1⟩⟩
  | some (l, none) => ⟨⟨l⟩⟩
  | some (l, some page) => ⟨⟨(rbInsert ⟨key, page⟩ (Seq.new.append item) l).1⟩⟩

/-- `Paged::get_last_page_number` (from `paged.rs`, lines 69–74): the page
number of the maximum entry sharing the logical key, if any. -/
def getLastPageNumber (t : Paged K V S) (key : K) : Option Nat :=
  (rbMaxEntry PagedKey.key key t.data.inner).map (fun e => e.1.page)

variable [LabelOf K] [AsHashTree V]

end Paged

/-- Association-list model of the `HashMap`s used by `Group` (keys are the
`TypeId`s of the leaf types, modelled as `Nat`): lookup. -/
def alookup {α : Type} (l : List (Nat × α)) (k : Nat) : Option α :=
  match l with
  | [] => none
  | (k', v) :: rest => if k = k' then some v else alookup rest k

/-- Association-list model of `HashMap::insert`: replace or add. -/
def ainsert {α : Type} (l : List (Nat × α)) (k : Nat) (v : α) : List (Nat × α) :=
  match l with
  | [] => [(k, v)]
  | (k', v') :: rest => if k = k' then (k, v) :: rest else (k', v') :: ainsert rest k v

/-- Association-list model of `HashMap::remove`: drop the entry for `k`. -/
def aremove {α : Type} (l : List (Nat × α)) (k : Nat) : List (Nat × α) :=
  match l with
  | [] => []
  | (k', v') :: rest => if k = k' then rest else (k', v') :: aremove rest k

/-- `GroupNode` (from `group.rs`, lines 33–44): the shadow shape tree — each
node carries its assigned id and is a `Fork`, a `Labeled` child, or a `Leaf`
identified by a type tag. -/
inductive GroupNode : Type where
  | Fork (id : Nat) (l r : GroupNode)
  | Labeled (id : Nat) (lbl : List Nat) (n : GroupNode)
  | Leaf (id : Nat) (tid : Nat)
deriving DecidableEq

namespace GroupNode

/-- The `id` field of a shape node. -/
def nid : GroupNode → Nat
  | .Fork i _ _ => i
  | .Labeled i _ _ => i
  | .Leaf i _ => i

/-- Number of nodes in the shape tree (verification helper). -/
def size : GroupNode → Nat
  | .Fork _ l r => 1 + l.size + r.size
  | .Labeled _ _ n => 1 + n.size
  | .Leaf _ _ => 1

/-- The list of `(id, type tag)` pairs of the leaves, in pre-order
(verification helper). -/
def leaves : GroupNode → List (Nat × Nat)
  | .Fork _ l r => l.leaves ++ r.leaves
  | .Labeled _ _ n => n.leaves
  | .Leaf i tid => [(i, tid)]

/-- The list of leaf type tags in pre-order (verification helper). -/
def leafTids : GroupNode → List Nat
  | .Fork _ l r => l.leafTids ++ r.leafTids
  | .Labeled _ _ n => n.leafTids
  | .Leaf _ tid => [tid]

/-- All node ids in pre-order (verification helper). -/
def idsOf : GroupNode → List Nat
  | .Fork i l r => i :: (l.idsOf ++ r.idsOf)
  | .Labeled i _ n => i :: n.idsOf
  | .Leaf i _ => [i]

end GroupNode

/-- The certifiable-leaf contract data of one type-erased boxed leaf stored
in a `Group`'s registry: its root hash and its full hash tree (the two
methods of the `GroupLeaf`/`AsHashTree` trait the group code calls). -/
structure LeafData : Type where
  rh : Hash
  ht : HashTree
deriving DecidableEq

/-- `Group` (from `group.rs`, lines 14–21): the shape tree, the registry
from type tag to boxed leaf, and the precomputed map from each leaf's type
tag to its full ancestor id path. -/
structure Group : Type where
  root : GroupNode
  data : List (Nat × LeafData)
  dependencies : List (Nat × List Nat)

/-- `GroupNode::visit_node` (from `group.rs`, lines 95–125): assign ids in
pre-order starting at `id`, record for every leaf tag the ancestor path
(`path` plus the ids pushed on the way down), and return the relabelled
node, the next free id, and the updated dependency map. -/
def GroupNode.visit_node :
    GroupNode → Nat → List (Nat × List Nat) → List Nat →
    GroupNode × Nat × List (Nat × List Nat)
  | .Fork _ l r, id, deps, path =>
    let (l', n1, d1) := l.visit_node (id + 1) deps (path ++ [id])
    let (r', n2, d2) := r.visit_node n1 d1 (path ++ [id])
    (.Fork id l' r', n2, d2)
  | .Leaf _ tid, id, deps, path =>
    (.Leaf id tid, id + 1, ainsert deps tid (path ++ [id]))
  | .Labeled _ lbl n, id, deps, path =>
    let (n', n1, d1) := n.visit_node (id + 1) deps (path ++ [id])
    (.Labeled id lbl n', n1, d1)

/-- `Group::init` (from `group.rs`, lines 48–52): clear the dependency map
and visit the whole shape tree starting from id 0 and the empty path. -/
def Group.init (g : Group) : Group :=
  let v := g.root.visit_node 0 [] []
  { g with root := v.1, dependencies := v.2.2 }

/-- `GroupNode::root_hash` (from `group.rs`, lines 161–172): fold the shape
tree, substituting each leaf's registered `root_hash()`; the source unwraps
the registry lookup, so a missing tag is `none` (a panic). -/
def GroupNode.root_hash (data : List (Nat × LeafData)) : GroupNode → Option Hash
  | .Fork _ l r => do
    let hl ← l.root_hash data
    let hr ← r.root_hash data
    pure (fork_hash hl hr)
  | .Labeled _ lbl n => do
    let h ← n.root_hash data
    pure (labeled_hash lbl h)
  | .Leaf _ tid => (alookup data tid).map (fun d => d.rh)

/-- `Ray`'s mutable state (from `group.rs`, lines 23–31): the set of
ancestor ids to keep, and the per-leaf override hash trees. -/
structure RayState : Type where
  to_visit : List Nat
  leaves : List (Nat × HashTree)
deriving DecidableEq

/-- `GroupNode::witness` (from `group.rs`, lines 127–144): if this node's id
is not in the keep set, short-circuit to `Pruned` of its root hash;
otherwise recurse, and at a leaf remove and substitute the stored override —
the source unwraps that removal, so a missing override is `none` (a panic). -/
def GroupNode.witness (data : List (Nat × LeafData)) :
    GroupNode → RayState → Option (HashTree × RayState)
  | .Fork i l r, ray =>
    if i ∈ ray.to_visit then do
      let (lt, ray1) ← l.witness data ray
      let (rt, ray2) ← r.witness data ray1
      pure (HashTree.Fork lt rt, ray2)
    else
      ((GroupNode.Fork i l r).root_hash data).map
        (fun h => (HashTree.Pruned h, ray))
  | .Labeled i lbl n, ray =>
    if i ∈ ray.to_visit then do
      let (t, ray1) ← n.witness data ray
      pure (HashTree.Labeled lbl t, ray1)
    else
      ((GroupNode.Labeled i lbl n).root_hash data).map
        (fun h => (HashTree.Pruned h, ray))
  | .Leaf i tid, ray =>
    if i ∈ ray.to_visit then
      (alookup ray.leaves tid).map
        (fun t => (t, ⟨ray.to_visit, aremove ray.leaves tid⟩))
    else
      ((GroupNode.Leaf i tid).root_hash data).map
        (fun h => (HashTree.Pruned h, ray))

/-- `GroupNode::witness_all` (from `group.rs`, lines 146–159): the full
witness — every leaf expanded via its own `as_hash_tree()`; the registry
lookup is unwrapped in the source, hence `Option`. -/
def GroupNode.witness_all (data : List (Nat × LeafData)) :
    GroupNode → Option HashTree
  | .Fork _ l r => do
    let lt ← l.witness_all data
    let rt ← r.witness_all data
    pure (HashTree.Fork lt rt)
  | .Labeled _ lbl n => do
    let t ← n.witness_all data
    pure (HashTree.Labeled lbl t)
  | .Leaf _ tid => (alookup data tid).map (fun d => d.ht)

/-- `Group::root_hash` (from `group.rs`, lines 246–249). -/
def Group.root_hash (g : Group) : Option Hash :=
  g.root.root_hash g.data

/-- `Group::as_hash_tree` (from `group.rs`, lines 251–253): the full,
unpruned witness. -/
def Group.as_hash_tree (g : Group) : Option HashTree :=
  g.root.witness_all g.data

namespace Ray

/-- `Ray::new` (from `group.rs`, lines 176–182): empty keep set, no
overrides. -/
def new : RayState := ⟨[], []⟩

/-- A `HashSet`-style insert for the keep set (membership is all the code
observes). -/
def tvInsert (tv : List Nat) (d : Nat) : List Nat :=
  if d ∈ tv then tv else d :: tv

/-- `Ray::full` (from `group.rs`, lines 190–201): insert all ancestor ids of
the tag into the keep set and store the leaf's full `as_hash_tree()` as the
override; both lookups are unwrapped in the source, hence `Option`. -/
def full (g : Group) (ray : RayState) (tid : Nat) : Option RayState := do
  let deps ← alookup g.dependencies tid
  let tv := deps.foldl tvInsert ray.to_visit
  let ld ← alookup g.data tid
  pure ⟨tv, ainsert ray.leaves tid ld.ht⟩

/-- `Ray::partial` (from `group.rs`, lines 204–216): same ancestor marking,
but the override is the hash tree produced by the caller's function applied
to the leaf (passed here as `tree`); the dependency and registry lookups are
unwrapped in the source, hence `Option`. -/
def part (g : Group) (ray : RayState) (tid : Nat) (tree : HashTree) :
    Option RayState := do
  let deps ← alookup g.dependencies tid
  let tv := deps.foldl tvInsert ray.to_visit
  let _ ← alookup g.data tid
  pure ⟨tv, ainsert ray.leaves tid tree⟩

/-- `Ray::build` (from `group.rs`, lines 185–187): one top-down walk of the
shape tree. -/
def build (g : Group) (ray : RayState) : Option HashTree :=
  (g.root.witness g.data ray).map (fun p => p.1)

end Ray

/-- One `full`/`partial` call on a `Ray`: either full disclosure of the tag,
or a caller-supplied partial override tree for it. -/
inductive Selection : Type where
  | full (tid : Nat)
  | part (tid : Nat) (tree : HashTree)
deriving DecidableEq

/-- Apply a chain of `full`/`partial` calls to a ray state, failing if any
call panics. -/
def applySelections (g : Group) : List Selection → RayState → Option RayState
  | [], ray => some ray
  | Selection.full tid :: rest, ray => do
    let ray' ← Ray.full g ray tid
    applySelections g rest ray'
  | Selection.part tid tree :: rest, ray => do
    let ray' ← Ray.part g ray tid tree
    applySelections g rest ray'

/-- `GroupBuilderNode` (from `group/builder.rs`, lines 11–18): a logical
directory tree ordered by segment name (the `BTreeMap` is modelled by its
sorted entry list), or a registered leaf tag. -/
inductive GroupBuilderNode : Type where
  | Directory (children : List (List Nat × GroupBuilderNode))
  | Leaf (tid : Nat)

/-- One pass of the semi-balanced fold in `GroupBuilderNode::build` (from
`group/builder.rs`, lines 109–126): pair adjacent siblings front-to-front,
keeping a trailing odd node. -/
def buildPairs : List GroupNode → List GroupNode
  | [] => []
  | [a] => [a]
  | a :: b :: rest => GroupNode.Fork 0 a b :: buildPairs rest

theorem buildPairs_length (l : List GroupNode) :
    (buildPairs l).length = (l.length + 1) / 2 := by
  induction l using buildPairs.induct with
  | case1 => simp [buildPairs]
  | case2 a => simp [buildPairs]
  | case3 a b rest ih =>
    simp only [buildPairs, List.length_cons, ih]
    omega

/-- The outer loop of the semi-balanced fold: repeat the pairing pass until
one node remains; with no children at all the source's final
`pop_front().unwrap()` panics, hence `none`. -/
def buildFold (l : List GroupNode) : Option GroupNode :=
  match l with
  | [] => none
  | [a] => some a
  | a :: b :: rest => buildFold (buildPairs (a :: b :: rest))
termination_by l.length
decreasing_by
  simp only [buildPairs_length]
  simp only [List.length_cons]
  omega

mutual

/-- `GroupBuilderNode::build` (from `group/builder.rs`, lines 96–135): a
leaf becomes a shape leaf; a directory wraps each child in a `Labeled` node
and folds the children into a semi-balanced fork tree. -/
def GroupBuilderNode.build : GroupBuilderNode → Option GroupNode
  | .Leaf tid => some (GroupNode.Leaf 0 tid)
  | .Directory children => do
    let built ← buildChildren children
    buildFold built

/-- Build the labelled children of a directory, in name order. -/
def buildChildren : List (List Nat × GroupBuilderNode) → Option (List GroupNode)
  | [] => some []
  | (k, v) :: rest => do
    let n ← GroupBuilderNode.build v
    let ns ← buildChildren rest
    pure (GroupNode.Labeled 0 k n :: ns)

end

/-- `GroupBuilder` (from `group/builder.rs`, lines 6–9): the root directory
and the registry of leaf data accumulated by `insert`. -/
structure GroupBuilder : Type where
  root : GroupBuilderNode
  data : List (Nat × LeafData)

/-- `GroupBuilder::new` (from `group/builder.rs`, lines 21–28): an empty
root directory and an empty registry. -/
def GroupBuilder.new : GroupBuilder := ⟨GroupBuilderNode.Directory [], []⟩

/-- `GroupBuilder::build` (from `group/builder.rs`, lines 52–62): build the
shape tree, assemble the group, and run `init`; a panic inside the shape
build is `none`. -/
def GroupBuilder.build (b : GroupBuilder) : Option Group :=
  (b.root.build).map (fun root => Group.init ⟨root, b.data, []⟩)

/-- Whether the shape tree contains at least one leaf node (verification
helper; true of every `GroupNode` since `Leaf` is the only terminal). -/
def GroupNode.hasLeaf : GroupNode → Bool
  | .Fork _ l r => l.hasLeaf || r.hasLeaf
  | .Labeled _ _ n => n.hasLeaf
  | .Leaf _ _ => true

mutual

/-- Whether some directory level of a builder tree has no children
(verification helper). -/
def GroupBuilderNode.hasEmptyDir : GroupBuilderNode → Bool
  | .Leaf _ => false
  | .Directory children => children.isEmpty || childrenHaveEmptyDir children

/-- Whether some child of a directory contains an empty directory level
(verification helper). -/
def childrenHaveEmptyDir : List (List Nat × GroupBuilderNode) → Bool
  | [] => false
  | (_, v) :: rest => v.hasEmptyDir || childrenHaveEmptyDir rest

end

/-! Sorted-store infrastructure. -/

/-- The store invariant: entries are strictly sorted by key (hence keys are
unique).  Every store reachable from `new` by the operations satisfies it. -/
def SortedKeys {K V : Type} [LinearOrder K] (l : List (K × V)) : Prop :=
  l.Pairwise (fun a b => a.1 < b.1)

instance {K V : Type} [LinearOrder K] (l : List (K × V)) :
    Decidable (SortedKeys l) := by
  unfold SortedKeys; infer_instance

theorem rbInsert_cons_lt {K V : Type} [LinearOrder K] {k k' : K} (v : V)
    (v' : V) (tl : List (K × V)) (h : k < k') :
    rbInsert k v ((k', v') :: tl) = ((k, v) :: (k', v') :: tl, none) := by
  simp [rbInsert, h]

theorem rbInsert_cons_eq {K V : Type} [LinearOrder K] (k : K) (v v' : V)
    (tl : List (K × V)) :
    rbInsert k v ((k, v') :: tl) = ((k, v) :: tl, some v') := by
  simp [rbInsert]

theorem rbInsert_cons_gt {K V : Type} [LinearOrder K] {k k' : K} (v : V)
    (v' : V) (tl : List (K × V)) (h : k' < k) :
    rbInsert k v ((k', v') :: tl) =
      ((k', v') :: (rbInsert k v tl).1, (rbInsert k v tl).2) := by
  cases hE : rbInsert k v tl with
  | mk a b => simp [rbInsert, lt_asymm h, ne_of_gt h, hE]

theorem rbDelete_cons_eq {K V : Type} [LinearOrder K] (k : K) (v' : V)
    (tl : List (K × V)) :
    rbDelete k ((k, v') :: tl) = (tl, some (k, v')) := by
  simp [rbDelete]

theorem rbDelete_cons_ne {K V : Type} [LinearOrder K] {k k' : K} (v' : V)
    (tl : List (K × V)) (h : k ≠ k') :
    rbDelete k ((k', v') :: tl) =
      ((k', v') :: (rbDelete k tl).1, (rbDelete k tl).2) := by
  cases hE : rbDelete k tl with
  | mk a b => simp [rbDelete, h, hE]

theorem rbGet_eq_none {K V : Type} [LinearOrder K] (k : K) (l : List (K × V))
    (h : ∀ e ∈ l, k ≠ e.1) : rbGet k l = none := by
  induction l with
  | nil => rfl
  | cons hd tl ih =>
    have hne : k ≠ hd.1 := h hd (List.mem_cons_self _ _)
    simp only [rbGet, hne, if_neg, not_false_iff]
    exact ih fun e he => h e (List.mem_cons_of_mem _ he)

theorem rbGet_insert_self {K V : Type} [LinearOrder K] (k : K) (v : V)
    (l : List (K × V)) : rbGet k (rbInsert k v l).1 = some v := by
  induction l with
  | nil => simp [rbInsert, rbGet]
  | cons hd tl ih =>
    obtain ⟨k', v'⟩ := hd
    rcases lt_trichotomy k k' with h1 | h1 | h1
    · rw [rbInsert_cons_lt v v' tl h1]
      simp [rbGet]
    · subst h1
      rw [rbInsert_cons_eq k v v' tl]
      simp [rbGet]
    · rw [rbInsert_cons_gt v v' tl h1]
      simpa [rbGet, ne_of_gt h1] using ih

theorem rbInsert_prev {K V : Type} [LinearOrder K] (k : K) (v : V)
    (l : List (K × V)) (hs : SortedKeys l) : (rbInsert k v l).2 = rbGet k l := by
  induction l with
  | nil => rfl
  | cons hd tl ih =>
    obtain ⟨k', v'⟩ := hd
    rcases List.pairwise_cons.mp hs with ⟨hhd, htl⟩
    rcases lt_trichotomy k k' with h1 | h1 | h1
    · have hget : rbGet k tl = none := by
        refine rbGet_eq_none k tl fun e he => ?_
        exact ne_of_lt (lt_trans h1 (hhd e he))
      rw [rbInsert_cons_lt v v' tl h1]
      simp [rbGet, ne_of_lt h1, hget]
    · subst h1
      rw [rbInsert_cons_eq k v v' tl]
      simp [rbGet]
    · rw [rbInsert_cons_gt v v' tl h1]
      simpa [rbGet, ne_of_gt h1] using ih htl

theorem rbDelete_insert_prev {K V : Type} [LinearOrder K] (k : K) (v : V)
    (l : List (K × V)) : (rbDelete k (rbInsert k v l).1).2 = some (k, v) := by
  induction l with
  | nil => simp [rbInsert, rbDelete]
  | cons hd tl ih =>
    obtain ⟨k', v'⟩ := hd
    rcases lt_trichotomy k k' with h1 | h1 | h1
    · rw [rbInsert_cons_lt v v' tl h1]
      simp [rbDelete]
    · subst h1
      rw [rbInsert_cons_eq k v v' tl]
      simp [rbDelete]
    · rw [rbInsert_cons_gt v v' tl h1]
      rw [rbDelete_cons_ne v' (rbInsert k v tl).1 (ne_of_gt h1)]
      exact ih

theorem rbGet_delete_insert {K V : Type} [LinearOrder K] (k : K) (v : V)
    (l : List (K × V)) (hs : SortedKeys l) :
    rbGet k (rbDelete k (rbInsert k v l).1).1 = none := by
  induction l with
  | nil => simp [rbInsert, rbDelete, rbGet]
  | cons hd tl ih =>
    obtain ⟨k', v'⟩ := hd
    rcases List.pairwise_cons.mp hs with ⟨hhd, htl⟩
    rcases lt_trichotomy k k' with h1 | h1 | h1
    · rw [rbInsert_cons_lt v v' tl h1, rbDelete_cons_eq]
      refine rbGet_eq_none k _ fun e he => ?_
      rcases List.mem_cons.mp he with he | he
      · simpa [he] using ne_of_lt h1
      · exact ne_of_lt (lt_trans h1 (hhd e he))
    · subst h1
      rw [rbInsert_cons_eq k v v' tl, rbDelete_cons_eq]
      refine rbGet_eq_none k tl fun e he => ?_
      exact ne_of_lt (hhd e he)
    · rw [rbInsert_cons_gt v v' tl h1]
      rw [rbDelete_cons_ne v' (rbInsert k v tl).1 (ne_of_gt h1)]
      simpa [rbGet, ne_of_gt h1] using ih htl

/-- C3.  Round trip: on any sorted map state, `insert(k, v)` followed by
`get(&k)` returns `v`; `insert(k, v)` returns the previous value for `k`
(nothing when `k` was absent); `insert(k, v)` followed by `remove(&k)`
returns `v`, and afterward `get(&k)` returns nothing. -/
theorem map_round_trip {K V : Type} [LinearOrder K] (m : Map K V)
    (hs : SortedKeys m.inner) (k : K) (v : V) :
    ((m.insert k v).1.get k = some v) ∧
    ((m.insert k v).2 = m.get k) ∧
    (((m.insert k v).1.remove k).2 = some v) ∧
    ((((m.insert k v).1.remove k).1.get k) = none) := by
  refine ⟨?_, ?_, ?_, ?_⟩
  · exact rbGet_insert_self k v m.inner
  · exact rbInsert_prev k v m.inner hs
  · simp [Map.insert, Map.remove, Map.get, rbDelete_insert_prev k v m.inner]
  · simpa [Map.insert, Map.remove, Map.get] using
      rbGet_delete_insert k v m.inner hs

/-- Witness for C3 at a concrete sorted state. -/
theorem map_round_trip_witness :
    SortedKeys (K := Nat) (V := Nat) [(1, 10), (3, 30)] ∧
    (((Map.mk [(1, 10), (3, 30)] : Map Nat Nat).insert 2 99).1.get 2 = some 99) ∧
    (((Map.mk [(1, 10), (3, 30)] : Map Nat Nat).insert 2 99).2 =
      (Map.mk [(1, 10), (3, 30)] : Map Nat Nat).get 2) ∧
    ((((Map.mk [(1, 10), (3, 30)] : Map Nat Nat).insert 2 99).1.remove 2).2 =
      some 99) ∧
    (((((Map.mk [(1, 10), (3, 30)] : Map Nat Nat).insert 2 99).1.remove 2).1.get 2)
      = none) := by
  have hs : SortedKeys (K := Nat) (V := Nat) [(1, 10), (3, 30)] := by decide
  have h := map_round_trip (Map.mk [(1, 10), (3, 30)] : Map Nat Nat) hs 2 99
  exact ⟨hs, h.1, h.2.1, h.2.2.1, h.2.2.2⟩

theorem rbInsert_comm_lt {K V : Type} [LinearOrder K] {k1 k2 : K} (v1 v2 : V)
    (l : List (K × V)) (h : k1 < k2) :
    (rbInsert k1 v1 (rbInsert k2 v2 l).1).1 =
      (rbInsert k2 v2 (rbInsert k1 v1 l).1).1 := by
  induction l with
  | nil =>
    show (rbInsert k1 v1 [(k2, v2)]).1 = (rbInsert k2 v2 [(k1, v1)]).1
    rw [rbInsert_cons_lt v1 v2 [] h, rbInsert_cons_gt v2 v1 [] h]
    rfl
  | cons hd tl ih =>
    obtain ⟨k', v'⟩ := hd
    rcases lt_trichotomy k1 k' with h1 | h1 | h1
    · rcases lt_trichotomy k2 k' with h2 | h2 | h2
      · simp [rbInsert_cons_lt v2 v' tl h2,
          rbInsert_cons_lt v1 v2 ((k', v') :: tl) h,
          rbInsert_cons_lt v1 v' tl h1,
          rbInsert_cons_gt v2 v1 ((k', v') :: tl) h]
      · subst h2
        simp [rbInsert_cons_eq k2 v2 v' tl,
          rbInsert_cons_lt v1 v2 tl h,
          rbInsert_cons_lt v1 v' tl h,
          rbInsert_cons_gt v2 v1 ((k2, v') :: tl) h]
      · simp [rbInsert_cons_gt v2 v' tl h2,
          rbInsert_cons_lt v1 v' (rbInsert k2 v2 tl).1 h1,
          rbInsert_cons_lt v1 v' tl h1,
          rbInsert_cons_gt v2 v1 ((k', v') :: tl) h]
    · subst h1
      simp [rbInsert_cons_gt v2 v' tl h,
        rbInsert_cons_eq k1 v1 v' tl,
        rbInsert_cons_eq k1 v1 v' (rbInsert k2 v2 tl).1,
        rbInsert_cons_gt v2 v1 tl h]
    · have h2 : k' < k2 := lt_trans h1 h
      simp [rbInsert_cons_gt v2 v' tl h2,
        rbInsert_cons_gt v1 v' tl h1,
        rbInsert_cons_gt v1 v' (rbInsert k2 v2 tl).1 h1,
        rbInsert_cons_gt v2 v' (rbInsert k1 v1 tl).1 h2, ih]

theorem rbInsert_comm {K V : Type} [LinearOrder K] {k1 k2 : K} (v1 v2 : V)
    (l : List (K × V)) (h : k1 ≠ k2) :
    (rbInsert k1 v1 (rbInsert k2 v2 l).1).1 =
      (rbInsert k2 v2 (rbInsert k1 v1 l).1).1 := by
  rcases lt_or_gt_of_ne h with h' | h'
  · exact rbInsert_comm_lt v1 v2 l h'
  · exact (rbInsert_comm_lt v2 v1 l h').symm

/-- Build a map by inserting a list of entries, in order, into `Map::new()`
(the loading pattern of `FromIterator for Map` in `map.rs`). -/
def insertAll {K V : Type} [LinearOrder K] (l : List (K × V)) : Map K V :=
  l.foldl (fun m kv => (m.insert kv.1 kv.2).1) Map.new

theorem insertAll_inner {K V : Type} [LinearOrder K] (l : List (K × V)) :
    ∀ m : Map K V, (l.foldl (fun m kv => (m.insert kv.1 kv.2).1) m).inner =
      l.foldl (fun s kv => (rbInsert kv.1 kv.2 s).1) m.inner := by
  induction l with
  | nil => intro m; rfl
  | cons hd tl ih =>
    intro m
    simpa [Map.insert] using ih ((m.insert hd.1 hd.2).1)

theorem foldl_rbInsert_perm {K V : Type} [LinearOrder K]
    {l1 l2 : List (K × V)} (hp : l1.Perm l2)
    (hnd : (l1.map Prod.fst).Nodup) :
    ∀ s : List (K × V),
      l1.foldl (fun s kv => (rbInsert kv.1 kv.2 s).1) s =
        l2.foldl (fun s kv => (rbInsert kv.1 kv.2 s).1) s := by
  induction hp with
  | nil => intro s; rfl
  | cons x _ ih =>
    intro s
    rw [List.map_cons] at hnd
    exact ih hnd.of_cons _
  | swap x y l =>
    intro s
    rw [List.map_cons, List.map_cons] at hnd
    have hxy : y.1 ≠ x.1 := by
      intro hc
      exact (List.nodup_cons.mp hnd).1 (by rw [hc]; exact List.mem_cons_self _ _)
    simp only [List.foldl_cons]
    rw [rbInsert_comm x.2 y.2 s (Ne.symm hxy)]
  | trans p1 p2 ih1 ih2 =>
    intro s
    have hnd2 := (p1.map Prod.fst).nodup_iff.mp hnd
    rw [ih1 hnd s, ih2 hnd2 s]

/-- C2.  Order independence: for every fixed set of `(key, value)` pairs
with distinct keys and every permutation of it, inserting the pairs in that
order into an empty tree via `Map::insert` yields the same map state, and
hence the same `root_hash()`. -/
theorem map_order_independence {K V : Type} [LinearOrder K] [LabelOf K]
    [AsHashTree V] (l1 l2 : List (K × V)) (hp : l1.Perm l2)
    (hnd : (l1.map Prod.fst).Nodup) :
    insertAll l1 = insertAll l2 ∧
      (insertAll l1).root_hash = (insertAll l2).root_hash := by
  have hstate : insertAll l1 = insertAll l2 := by
    have h1 := insertAll_inner l1 (Map.new (K := K) (V := V))
    have h2 := insertAll_inner l2 (Map.new (K := K) (V := V))
    have h3 := foldl_rbInsert_perm hp hnd ((Map.new (K := K) (V := V)).inner)
    cases hI1 : insertAll l1 with
    | mk a =>
      cases hI2 : insertAll l2 with
      | mk b =>
        have : a = b := by
          have ha : a = l1.foldl (fun s kv => (rbInsert kv.1 kv.2 s).1) [] := by
            have := h1
            rw [show (l1.foldl (fun m kv => (m.insert kv.1 kv.2).1) Map.new) =
              insertAll l1 from rfl, hI1] at this
            simpa [Map.new] using this
          have hb : b = l2.foldl (fun s kv => (rbInsert kv.1 kv.2 s).1) [] := by
            have := h2
            rw [show (l2.foldl (fun m kv => (m.insert kv.1 kv.2).1) Map.new) =
              insertAll l2 from rfl, hI2] at this
            simpa [Map.new] using this
          rw [ha, hb]
          simpa [Map.new] using h3
        simp [this]
  exact ⟨hstate, by rw [hstate]⟩

/-- Witness for C2 at a concrete permutation with distinct keys. -/
theorem map_order_independence_witness :
    ([((1 : Nat), (10 : Nat)), (2, 20), (3, 30)].Perm
      [(3, 30), (1, 10), (2, 20)]) ∧
    (([((1 : Nat), (10 : Nat)), (2, 20), (3, 30)].map Prod.fst).Nodup) ∧
    (insertAll [((1 : Nat), (10 : Nat)), (2, 20), (3, 30)]).root_hash =
      (insertAll [(3, 30), (1, 10), (2, 20)]).root_hash := by
  have hp : ([((1 : Nat), (10 : Nat)), (2, 20), (3, 30)].Perm
      [(3, 30), (1, 10), (2, 20)]) := by decide
  have hnd : (([((1 : Nat), (10 : Nat)), (2, 20), (3, 30)]).map Prod.fst).Nodup := by
    decide
  exact ⟨hp, hnd, (map_order_independence _ _ hp hnd).2⟩

theorem rbModify_cons_eq {K V : Type} [LinearOrder K] (k : K) (f : V → V)
    (v' : V) (tl : List (K × V)) :
    rbModify k f ((k, v') :: tl) = ((k, f v') :: tl, true) := by
  simp [rbModify]

theorem rbModify_cons_ne {K V : Type} [LinearOrder K] {k k' : K} (f : V → V)
    (v' : V) (tl : List (K × V)) (h : k ≠ k') :
    rbModify k f ((k', v') :: tl) =
      ((k', v') :: (rbModify k f tl).1, (rbModify k f tl).2) := by
  cases hE : rbModify k f tl with
  | mk a b => simp [rbModify, h, hE]

theorem rbModify_hit {K V : Type} [LinearOrder K] (k : K) (f : V → V)
    (l : List (K × V)) : (rbModify k f l).2 = (rbGet k l).isSome := by
  induction l with
  | nil => rfl
  | cons hd tl ih =>
    obtain ⟨k', v'⟩ := hd
    by_cases h : k = k'
    · subst h
      simp [rbModify_cons_eq, rbGet]
    · rw [rbModify_cons_ne f v' tl h]
      simpa [rbGet, h] using ih

theorem rbModify_absent {K V : Type} [LinearOrder K] (k : K) (f : V → V)
    (l : List (K × V)) (h : rbGet k l = none) : rbModify k f l = (l, false) := by
  induction l with
  | nil => rfl
  | cons hd tl ih =>
    obtain ⟨k', v'⟩ := hd
    by_cases hk : k = k'
    · simp [rbGet, hk] at h
    · rw [rbModify_cons_ne f v' tl hk]
      rw [ih (by simpa [rbGet, hk] using h)]

theorem rbModify_insert {K V : Type} [LinearOrder K] (k : K) (f : V → V)
    (s : V) (l : List (K × V)) :
    (rbModify k f (rbInsert k s l).1).1 = (rbInsert k (f s) l).1 := by
  induction l with
  | nil => simp [rbInsert, rbModify]
  | cons hd tl ih =>
    obtain ⟨k', v'⟩ := hd
    rcases lt_trichotomy k k' with h1 | h1 | h1
    · rw [rbInsert_cons_lt s v' tl h1, rbModify_cons_eq,
        rbInsert_cons_lt (f s) v' tl h1]
    · subst h1
      rw [rbInsert_cons_eq k s v' tl, rbModify_cons_eq,
        rbInsert_cons_eq k (f s) v' tl]
    · rw [rbInsert_cons_gt s v' tl h1,
        rbModify_cons_ne f v' (rbInsert k s tl).1 (ne_of_gt h1),
        rbInsert_cons_gt (f s) v' tl h1]
      simp [ih]

/-- Reference program for C7, following the spec's words: if `key` is
absent, first insert an empty `Seq` at `key`; then always append `value` to
the `Seq` at `key` in place. -/
def append_deep_spec {K V : Type} [LinearOrder K] (m : Map K (Seq V)) (k : K)
    (v : V) : Map K (Seq V) :=
  let m1 : Map K (Seq V) :=
    match m.get k with
    | none => ⟨(rbInsert k Seq.new m.inner).1⟩
    | some _ => m
  ⟨(rbModify k (fun s => s.append v) m1.inner).1⟩

/-- C7.  `append_deep` refinement: for every map state, key and value,
`Map::append_deep(k, v)` produces exactly the state of the reference
program "if `k` is absent, insert an empty `Seq` at `k`; then append `v` to
the `Seq` at `k`" (hence the same entries and root hash); and when `k`
already holds a `Seq`, it is realized as the single in-place `modify`, with
no separate insert. -/
theorem append_deep_refines {K V : Type} [LinearOrder K]
    (m : Map K (Seq V)) (k : K) (v : V) :
    Map.append_deep m k v = append_deep_spec m k v ∧
    (∀ s, m.get k = some s →
      Map.append_deep m k v = ⟨(rbModify k (fun t => t.append v) m.inner).1⟩) := by
  constructor
  · cases hget : m.get k with
    | none =>
      have hget' : rbGet k m.inner = none := hget
      have hmod := rbModify_absent k (fun s => s.append v) m.inner hget'
      simp only [Map.append_deep, hmod, Bool.false_eq_true, if_neg,
        not_false_iff, append_deep_spec, hget]
      have := rbModify_insert k (fun s => s.append v) Seq.new m.inner
      simp [this]
    | some s =>
      have hh : (rbModify k (fun s => s.append v) m.inner).2 = true := by
        rw [rbModify_hit, show rbGet k m.inner = some s from hget]; rfl
      simp only [Map.append_deep, append_deep_spec, hget]
      cases hE : rbModify k (fun s => s.append v) m.inner with
      | mk a b =>
        rw [hE] at hh
        simp only at hh
        subst hh
        simp
  · intro s hget
    have hh : (rbModify k (fun t => t.append v) m.inner).2 = true := by
      rw [rbModify_hit, show rbGet k m.inner = some s from hget]; rfl
    simp only [Map.append_deep]
    cases hE : rbModify k (fun t => t.append v) m.inner with
    | mk a b =>
      rw [hE] at hh
      simp only at hh
      subst hh
      simp

/-- Witness for C7 at a concrete state where the key is present. -/
theorem append_deep_refines_witness :
    ((Map.mk [((1 : Nat), Seq.mk [(5 : Nat)])]).get 1 = some (Seq.mk [5])) ∧
    Map.append_deep (Map.mk [((1 : Nat), Seq.mk [(5 : Nat)])]) 1 7 =
      Map.mk [(1, Seq.mk [5, 7])] := by
  have h := append_deep_refines (Map.mk [((1 : Nat), Seq.mk [(5 : Nat)])]) 1 7
  refine ⟨by decide, ?_⟩
  rw [(h.2 (Seq.mk [5]) (by decide))]
  decide

theorem list_map_id {α : Type} (f : α → α) (l : List α)
    (h : ∀ x ∈ l, f x = x) : l.map f = l := by
  induction l with
  | nil => rfl
  | cons hd tl ih =>
    simp only [List.map_cons, h hd (List.mem_cons_self _ _),
      ih fun x hx => h x (List.mem_cons_of_mem _ hx)]

theorem rbModifyMax_cons_some {K V R P : Type} [LinearOrder K] [DecidableEq P]
    (borrow : K → P) (p : P) (f : K → V → V × R) (k' : K) (v' : V)
    (tl : List (K × V)) (l' : List (K × V)) (r : R)
    (h : rbModifyMax borrow p f tl = some (l', r)) :
    rbModifyMax borrow p f ((k', v') :: tl) = some ((k', v') :: l', r) := by
  simp [rbModifyMax, h]

theorem rbModifyMax_cons_none_match {K V R P : Type} [LinearOrder K]
    [DecidableEq P] (borrow : K → P) (p : P) (f : K → V → V × R) (k' : K)
    (v' : V) (tl : List (K × V))
    (hrec : rbModifyMax borrow p f tl = none) (hm : borrow k' = p) :
    rbModifyMax borrow p f ((k', v') :: tl) =
      some ((k', (f k' v').1) :: tl, (f k' v').2) := by
  cases hE : f k' v' with
  | mk a b => simp [rbModifyMax, hrec, hm, hE]

theorem rbModifyMax_cons_none_nomatch {K V R P : Type} [LinearOrder K]
    [DecidableEq P] (borrow : K → P) (p : P) (f : K → V → V × R) (k' : K)
    (v' : V) (tl : List (K × V))
    (hrec : rbModifyMax borrow p f tl = none) (hm : ¬ borrow k' = p) :
    rbModifyMax borrow p f ((k', v') :: tl) = none := by
  simp [rbModifyMax, hrec, hm]

theorem rbModifyMax_none {K V R P : Type} [LinearOrder K] [DecidableEq P]
    (borrow : K → P) (p : P) (f : K → V → V × R) (l : List (K × V))
    (h : ∀ e ∈ l, borrow e.1 ≠ p) : rbModifyMax borrow p f l = none := by
  induction l with
  | nil => rfl
  | cons hd tl ih =>
    obtain ⟨k', v'⟩ := hd
    exact rbModifyMax_cons_none_nomatch borrow p f k' v' tl
      (ih fun e he => h e (List.mem_cons_of_mem _ he))
      (h (k', v') (List.mem_cons_self _ _))

theorem rbMaxEntry_none {K V P : Type} [LinearOrder K] [DecidableEq P]
    (borrow : K → P) (p : P) (l : List (K × V))
    (h : ∀ e ∈ l, borrow e.1 ≠ p) : rbMaxEntry borrow p (V := V) l = none := by
  induction l with
  | nil => rfl
  | cons hd tl ih =>
    obtain ⟨k', v'⟩ := hd
    have hrec : rbMaxEntry borrow p (V := V) tl = none :=
      ih fun e he => h e (List.mem_cons_of_mem _ he)
    simp [rbMaxEntry, hrec, h (k', v') (List.mem_cons_self _ _)]

theorem rbModifyMax_max {K V R P : Type} [LinearOrder K] [DecidableEq P]
    (borrow : K → P) (p : P) (f : K → V → V × R) (l : List (K × V))
    (e₀ : K × V) (hs : SortedKeys l) (he : e₀ ∈ l) (hm : borrow e₀.1 = p)
    (hmax : ∀ e ∈ l, borrow e.1 = p → e.1 ≤ e₀.1) :
    rbModifyMax borrow p f l =
      some (l.map (fun e => if e.1 = e₀.1 then (e₀.1, (f e₀.1 e₀.2).1) else e),
        (f e₀.1 e₀.2).2) := by
  induction l with
  | nil => exact absurd he (List.not_mem_nil _)
  | cons hd tl ih =>
    obtain ⟨k', v'⟩ := hd
    rcases List.pairwise_cons.mp hs with ⟨hhd, htl⟩
    by_cases hA : ∀ e ∈ tl, borrow e.1 ≠ p
    · have hrec := rbModifyMax_none borrow p f tl hA
      have he0 : e₀ = (k', v') := by
        rcases List.mem_cons.mp he with h | h
        · exact h
        · exact absurd hm (hA e₀ h)
      subst he0
      rw [rbModifyMax_cons_none_match borrow p f k' v' tl hrec hm]
      have hmap : tl.map
          (fun e => if e.1 = (k', v').1 then ((k', v').1, (f (k', v').1 (k', v').2).1) else e)
          = tl := by
        refine list_map_id _ tl fun e hetl => ?_
        have : k' < e.1 := hhd e hetl
        simp [ne_of_gt this]
      simp [hmap]
    · push_neg at hA
      obtain ⟨e₁, he₁, hm₁⟩ := hA
      have he0tl : e₀ ∈ tl := by
        rcases List.mem_cons.mp he with h | h
        · exfalso
          have hlt : k' < e₁.1 := hhd e₁ he₁
          have hle : e₁.1 ≤ e₀.1 := hmax e₁ (List.mem_cons_of_mem _ he₁) hm₁
          rw [h] at hle
          exact absurd hle (not_le.mpr hlt)
        · exact h
      have hrec := ih htl he0tl
        (fun e he' hm' => hmax e (List.mem_cons_of_mem _ he') hm')
      rw [rbModifyMax_cons_some borrow p f k' v' tl _ _ hrec]
      have hne : ¬ (k' = e₀.1) := ne_of_lt (hhd e₀ he0tl)
      simp [hne]

/-- The composite-key store of the C6 example: logical keys 1 and 3 with
pages as in the spec's prefix-max example. -/
def pfxExample : List (PagedKey Nat × Nat) :=
  [(⟨1, 0⟩, 10), (⟨1, 1⟩, 11), (⟨1, 2⟩, 12), (⟨3, 0⟩, 30), (⟨3, 1⟩, 31)]

/-- C6.  Prefix-max: on any sorted store, `modify_max_with_prefix(p, f)`
applies `f` to the entry with the largest key whose prefix projection
equals `p` and returns `f`'s result, and returns the "no such entry"
sentinel when no key shares `p`; in particular, for composite keys
`(1,0),(1,1),(1,2),(3,0),(3,1)`, prefix 1 locates `(1,2)`, prefix 2 finds
nothing, and prefix 3 locates `(3,1)`. -/
theorem modify_max_with_pfx_correct {K V R P : Type} [LinearOrder K]
    [DecidableEq P] (borrow : K → P) (p : P) (f : K → V → V × R)
    (l : List (K × V)) (hs : SortedKeys l) :
    ((∀ e ∈ l, borrow e.1 ≠ p) → rbModifyMax borrow p f l = none) ∧
    (∀ e₀ ∈ l, borrow e₀.1 = p → (∀ e ∈ l, borrow e.1 = p → e.1 ≤ e₀.1) →
      rbModifyMax borrow p f l =
        some (l.map (fun e => if e.1 = e₀.1 then (e₀.1, (f e₀.1 e₀.2).1) else e),
          (f e₀.1 e₀.2).2)) ∧
    ((rbModifyMax (V := Nat) PagedKey.key 1 (fun k v => (v, k)) pfxExample).map
        (fun q => q.2) = some ⟨1, 2⟩) ∧
    (rbModifyMax (V := Nat) PagedKey.key 2 (fun k v => (v, k)) pfxExample
        = none) ∧
    ((rbModifyMax (V := Nat) PagedKey.key 3 (fun k v => (v, k)) pfxExample).map
        (fun q => q.2) = some ⟨3, 1⟩) := by
  refine ⟨fun h => rbModifyMax_none borrow p f l h,
    fun e₀ he hm hmax => rbModifyMax_max borrow p f l e₀ hs he hm hmax,
    by decide, by decide, by decide⟩

/-- Witness for C6: the general parts applied at a concrete sorted store. -/
theorem modify_max_with_pfx_correct_witness :
    SortedKeys (V := Nat) [(⟨1, 0⟩, 10), ((⟨1, 2⟩ : PagedKey Nat), 12)] ∧
    rbModifyMax (V := Nat) PagedKey.key 1 (fun k v => (v + 1, k))
      [(⟨1, 0⟩, 10), ((⟨1, 2⟩ : PagedKey Nat), 12)] =
      some ([(⟨1, 0⟩, 10), (⟨1, 2⟩, 13)], ⟨1, 2⟩) ∧
    rbModifyMax (V := Nat) PagedKey.key 7 (fun k v => (v + 1, k))
      [(⟨1, 0⟩, 10), ((⟨1, 2⟩ : PagedKey Nat), 12)] = none := by
  have hs : SortedKeys (V := Nat)
      [(⟨1, 0⟩, 10), ((⟨1, 2⟩ : PagedKey Nat), 12)] := by decide
  have h := modify_max_with_pfx_correct (V := Nat) PagedKey.key 1
    (fun k v => (v + 1, k)) [(⟨1, 0⟩, 10), ((⟨1, 2⟩ : PagedKey Nat), 12)] hs
  have h7 := modify_max_with_pfx_correct (V := Nat) PagedKey.key 7
    (fun k v => (v + 1, k)) [(⟨1, 0⟩, 10), ((⟨1, 2⟩ : PagedKey Nat), 12)] hs
  refine ⟨hs, ?_, ?_⟩
  · have := h.2.1 (⟨1, 2⟩, 12) (by decide) (by decide) (by decide)
    simpa using this
  · exact h7.1 (by decide)

theorem GroupNode.hasLeaf_eq_true : ∀ n : GroupNode, n.hasLeaf = true
  | .Fork _ l _ => by
    simp [GroupNode.hasLeaf, GroupNode.hasLeaf_eq_true l]
  | .Labeled _ _ n => by
    simp [GroupNode.hasLeaf, GroupNode.hasLeaf_eq_true n]
  | .Leaf _ _ => rfl

mutual

theorem GroupBuilderNode.build_none_of_hasEmptyDir :
    ∀ n : GroupBuilderNode, n.hasEmptyDir = true → n.build = none
  | .Leaf _, h => by simp [GroupBuilderNode.hasEmptyDir] at h
  | .Directory children, h => by
    cases children with
    | nil => simp [GroupBuilderNode.build, buildChildren, buildFold]
    | cons c rest =>
      rw [GroupBuilderNode.hasEmptyDir] at h
      simp only [List.isEmpty_cons, Bool.false_or] at h
      have hc := buildChildren_none_of_emptyDir (c :: rest) h
      simp [GroupBuilderNode.build, hc]

theorem buildChildren_none_of_emptyDir :
    ∀ cs : List (List Nat × GroupBuilderNode),
      childrenHaveEmptyDir cs = true → buildChildren cs = none
  | (k, v) :: rest, h => by
    rw [childrenHaveEmptyDir] at h
    rcases Bool.or_eq_true_iff.mp h with h1 | h1
    · have hv := GroupBuilderNode.build_none_of_hasEmptyDir v h1
      simp [buildChildren, hv]
    · have hr := buildChildren_none_of_emptyDir rest h1
      cases hE : GroupBuilderNode.build v with
      | none => simp [buildChildren, hE]
      | some n => simp [buildChildren, hE, hr]

end

/-- C10.  `GroupBuilder::build()` panics (fails) on a builder with no
registered leaves — `GroupBuilder::new().build()` fails, and more generally
any builder whose shape contains a directory level with no children fails —
so an empty `Group` is not constructible, and every successfully built
`Group`'s shape tree contains at least one leaf. -/
theorem group_builder_no_empty_group :
    ((GroupBuilder.new).build = none) ∧
    (∀ n : GroupBuilderNode, n.hasEmptyDir = true → n.build = none) ∧
    (∀ b : GroupBuilder, ∀ g : Group, b.build = some g →
      g.root.hasLeaf = true) := by
  refine ⟨?_, GroupBuilderNode.build_none_of_hasEmptyDir, ?_⟩
  · simp [GroupBuilder.build, GroupBuilder.new, GroupBuilderNode.build,
      buildChildren, buildFold]
  · intro b g _
    exact GroupNode.hasLeaf_eq_true g.root

/-- Witness for C10: a nested empty directory fails to build, and a
concrete one-leaf builder builds a group whose shape has a leaf. -/
theorem group_builder_no_empty_group_witness :
    ((GroupBuilderNode.Directory [([0], GroupBuilderNode.Directory [])]).hasEmptyDir
      = true) ∧
    ((GroupBuilderNode.Directory [([0], GroupBuilderNode.Directory [])]).build
      = none) ∧
    ((GroupBuilder.mk (GroupBuilderNode.Directory [([0], GroupBuilderNode.Leaf 7)])
        [(7, ⟨Hash.leaf [1], HashTree.Leaf [1]⟩)]).build =
      some ⟨GroupNode.Labeled 0 [0] (GroupNode.Leaf 1 7),
        [(7, ⟨Hash.leaf [1], HashTree.Leaf [1]⟩)], [(7, [0, 1])]⟩) ∧
    ((GroupNode.Labeled 0 [0] (GroupNode.Leaf 1 7)).hasLeaf = true) := by
  have h1 : (GroupBuilderNode.Directory
      [([0], GroupBuilderNode.Directory [])]).hasEmptyDir = true := by
    rw [GroupBuilderNode.hasEmptyDir, childrenHaveEmptyDir,
      GroupBuilderNode.hasEmptyDir]
    rfl
  have h2 : (GroupBuilder.mk
      (GroupBuilderNode.Directory [([0], GroupBuilderNode.Leaf 7)])
      [(7, ⟨Hash.leaf [1], HashTree.Leaf [1]⟩)]).build =
      some ⟨GroupNode.Labeled 0 [0] (GroupNode.Leaf 1 7),
        [(7, ⟨Hash.leaf [1], HashTree.Leaf [1]⟩)], [(7, [0, 1])]⟩ := by
    simp [GroupBuilder.build, GroupBuilderNode.build, buildChildren,
      buildFold, Group.init, GroupNode.visit_node, ainsert]
  refine ⟨h1, group_builder_no_empty_group.2.1 _ h1, h2, ?_⟩
  exact group_builder_no_empty_group.2.2
    (GroupBuilder.mk (GroupBuilderNode.Directory [([0], GroupBuilderNode.Leaf 7)])
      [(7, ⟨Hash.leaf [1], HashTree.Leaf [1]⟩)])
    ⟨GroupNode.Labeled 0 [0] (GroupNode.Leaf 1 7),
      [(7, ⟨Hash.leaf [1], HashTree.Leaf [1]⟩)], [(7, [0, 1])]⟩ h2

/-- The concrete two-leaf group of the source's own `yyy` test: a fork of a
labelled map-like leaf (tag 1) and a scalar leaf (tag 2), initialised so
that ids and dependency paths are assigned. -/
def gExample : Group :=
  Group.init
    ⟨GroupNode.Fork 0
        (GroupNode.Labeled 0 [65] (GroupNode.Leaf 0 1))
        (GroupNode.Leaf 0 2),
      [(1, ⟨Hash.labeled [88] (Hash.leaf [17]),
        HashTree.Labeled [88] (HashTree.Leaf [17])⟩),
       (2, ⟨Hash.leaf [42], HashTree.Leaf [42]⟩)],
      []⟩

/-- Counterexample to C8 as stated: on the source's own test group, a `Ray`
on which no leaf tag was ever marked (`Ray::new`, empty keep set and
override map) builds successfully — it returns the fully pruned witness
rather than panicking. -/
theorem ray_unmarked_build_succeeds :
    Ray.build gExample Ray.new =
      some (HashTree.Pruned
        (Hash.fork (Hash.labeled [65] (Hash.labeled [88] (Hash.leaf [17])))
          (Hash.leaf [42]))) := by
  rfl

/-- C8 (amended).  `Ray::full`/`Ray::partial` panic when invoked for a type
tag absent from the group's dependency map (i.e. not a leaf tag of the
shape tree); `build()` panics when its walk reaches a `Leaf` node whose id
is in the keep set but whose tag has no stored override; and a ray with no
marked tags does not fail — it builds the fully pruned witness, provided
the registry covers the shape's tags (so the pruned root hash exists). -/
theorem ray_failure_conditions :
    (∀ g : Group, ∀ ray : RayState, ∀ tid : Nat,
      alookup g.dependencies tid = none → Ray.full g ray tid = none) ∧
    (∀ g : Group, ∀ ray : RayState, ∀ tid : Nat, ∀ tree : HashTree,
      alookup g.dependencies tid = none → Ray.part g ray tid tree = none) ∧
    (∀ data : List (Nat × LeafData), ∀ i tid : Nat, ∀ ray : RayState,
      i ∈ ray.to_visit → alookup ray.leaves tid = none →
      GroupNode.witness data (GroupNode.Leaf i tid) ray = none) ∧
    (∀ g : Group, ∀ h : Hash, GroupNode.root_hash g.data g.root = some h →
      Ray.build g Ray.new = some (HashTree.Pruned h)) := by
  refine ⟨?_, ?_, ?_, ?_⟩
  · intro g ray tid hdep
    simp [Ray.full, hdep]
  · intro g ray tid tree hdep
    simp [Ray.part, hdep]
  · intro data i tid ray hi hleaf
    simp [GroupNode.witness, hi, hleaf]
  · intro g h hroot
    cases hr : g.root with
    | Fork i l r =>
      have : GroupNode.root_hash g.data (GroupNode.Fork i l r) = some h := by
        rw [← hr]; exact hroot
      simp [Ray.build, Ray.new, GroupNode.witness, hr, this]
    | Labeled i lbl n =>
      have : GroupNode.root_hash g.data (GroupNode.Labeled i lbl n) = some h := by
        rw [← hr]; exact hroot
      simp [Ray.build, Ray.new, GroupNode.witness, hr, this]
    | Leaf i tid =>
      have : GroupNode.root_hash g.data (GroupNode.Leaf i tid) = some h := by
        rw [← hr]; exact hroot
      simp [Ray.build, Ray.new, GroupNode.witness, hr, this]

/-- Witness for C8 at the concrete test group: marking an unregistered tag
fails, a reached leaf without an override fails, and the unmarked ray
builds the pruned root. -/
theorem ray_failure_conditions_witness :
    (alookup gExample.dependencies 99 = none) ∧
    (Ray.full gExample ⟨[0], []⟩ 99 = none) ∧
    (Ray.part gExample ⟨[0], []⟩ 99 HashTree.Empty = none) ∧
    (GroupNode.witness gExample.data (GroupNode.Leaf 3 2) ⟨[3], []⟩ = none) ∧
    (Ray.build gExample Ray.new =
      some (HashTree.Pruned
        (Hash.fork (Hash.labeled [65] (Hash.labeled [88] (Hash.leaf [17])))
          (Hash.leaf [42])))) := by
  refine ⟨by decide, ?_, ?_, ?_, ?_⟩
  · exact ray_failure_conditions.1 gExample ⟨[0], []⟩ 99 (by decide)
  · exact ray_failure_conditions.2.1 gExample ⟨[0], []⟩ 99 HashTree.Empty
      (by decide)
  · exact ray_failure_conditions.2.2.1 gExample.data 3 2 ⟨[3], []⟩
      (by decide) (by decide)
  · exact ray_failure_conditions.2.2.2 gExample
      (Hash.fork (Hash.labeled [65] (Hash.labeled [88] (Hash.leaf [17])))
        (Hash.leaf [42])) (by decide)

theorem PagedKey.lt_iff {K : Type} [LinearOrder K] (a b : PagedKey K) :
    a < b ↔ a.key < b.key ∨ (a.key = b.key ∧ a.page < b.page) := by
  rw [lt_iff_le_not_le]
  have hle : ∀ x y : PagedKey K,
      (x ≤ y) ↔ (x.key < y.key ∨ (x.key = y.key ∧ x.page ≤ y.page)) := by
    intro x y
    show toLex (x.key, x.page) ≤ toLex (y.key, y.page) ↔
      x.key < y.key ∨ (x.key = y.key ∧ x.page ≤ y.page)
    exact Prod.Lex.le_iff (x.key, x.page) (y.key, y.page)
  rw [hle, hle]
  constructor
  · rintro ⟨h1, h2⟩
    rcases h1 with h | ⟨he, hp⟩
    · exact Or.inl h
    · right
      refine ⟨he, ?_⟩
      by_contra hnp
      exact h2 (Or.inr ⟨he.symm, not_lt.mp hnp⟩)
  · rintro (h | ⟨he, hp⟩)
    · refine ⟨Or.inl h, ?_⟩
      rintro (h' | ⟨he', _⟩)
      · exact absurd h' (lt_asymm h)
      · exact absurd he' (ne_of_gt h)
    · refine ⟨Or.inr ⟨he, le_of_lt hp⟩, ?_⟩
      rintro (h' | ⟨he', hp'⟩)
      · exact absurd h' (he ▸ lt_irrefl _)
      · exact absurd hp' (not_le.mpr hp)

theorem pagedKey_lt_same {K : Type} [LinearOrder K] (k : K) {i j : Nat}
    (h : i < j) : (⟨k, i⟩ : PagedKey K) < ⟨k, j⟩ :=
  (PagedKey.lt_iff _ _).mpr (Or.inr ⟨rfl, h⟩)

theorem Seq.len_append {V : Type} (s : Seq V) (v : V) :
    (s.append v).len = s.len + 1 := by
  simp [Seq.append, Seq.len]

theorem rbModifyMax_append_last {K V R P : Type} [LinearOrder K]
    [DecidableEq P] (borrow : K → P) (p : P) (f : K → V → V × R)
    (l : List (K × V)) (k₀ : K) (v₀ : V) (hm : borrow k₀ = p) :
    rbModifyMax borrow p f (l ++ [(k₀, v₀)]) =
      some (l ++ [(k₀, (f k₀ v₀).1)], (f k₀ v₀).2) := by
  induction l with
  | nil =>
    simpa using rbModifyMax_cons_none_match borrow p f k₀ v₀ [] rfl hm
  | cons hd tl ih =>
    obtain ⟨k', v'⟩ := hd
    simpa using rbModifyMax_cons_some borrow p f k' v' _ _ _ ih

theorem rbMaxEntry_cons_some {K V P : Type} [LinearOrder K] [DecidableEq P]
    (borrow : K → P) (p : P) (k' : K) (v' : V) (tl : List (K × V))
    (e : K × V) (h : rbMaxEntry borrow p tl = some e) :
    rbMaxEntry borrow p ((k', v') :: tl) = some e := by
  simp [rbMaxEntry, h]

theorem rbMaxEntry_append_last {K V P : Type} [LinearOrder K] [DecidableEq P]
    (borrow : K → P) (p : P) (l : List (K × V)) (k₀ : K) (v₀ : V)
    (hm : borrow k₀ = p) :
    rbMaxEntry borrow p (l ++ [(k₀, v₀)]) = some (k₀, v₀) := by
  induction l with
  | nil => simp [rbMaxEntry, hm]
  | cons hd tl ih =>
    obtain ⟨k', v'⟩ := hd
    rw [List.cons_append]
    exact rbMaxEntry_cons_some borrow p k' v' _ _ ih

theorem rbInsert_append_gt {K V : Type} [LinearOrder K] (k : K) (v : V)
    (l : List (K × V)) (h : ∀ e ∈ l, e.1 < k) :
    rbInsert k v l = (l ++ [(k, v)], none) := by
  induction l with
  | nil => simp [rbInsert]
  | cons hd tl ih =>
    obtain ⟨k', v'⟩ := hd
    have hk : k' < k := h (k', v') (List.mem_cons_self _ _)
    rw [rbInsert_cons_gt v v' tl hk,
      ih fun e he => h e (List.mem_cons_of_mem _ he)]
    simp

/-- Insert a list of items one by one under a single logical key (the C5
scenario). -/
def pagedInsertSame {K V : Type} {S : Nat} [LinearOrder K] (t : Paged K V S)
    (k : K) (items : List V) : Paged K V S :=
  items.foldl (fun t it => t.insert k it) t

/-- The single-key paging state: exactly pages `0..q`, all below `q` full
with `S` items, page `q` holding `r` items. -/
def SingleKeyState {K V : Type} [LinearOrder K] (S : Nat) (k : K) (q r : Nat)
    (t : Paged K V S) : Prop :=
  ∃ seqs : Nat → Seq V,
    t.data.inner =
      ((List.range q).map (fun i => (⟨k, i⟩, seqs i))) ++ [(⟨k, q⟩, seqs q)] ∧
    (∀ i < q, (seqs i).len = S) ∧ (seqs q).len = r

theorem paged_insert_empty {K V : Type} {S : Nat} [LinearOrder K] (k : K)
    (it : V) : SingleKeyState S k 0 1 ((Paged.new : Paged K V S).insert k it) := by
  refine ⟨fun _ => Seq.new.append it, ?_, fun i hi => absurd hi (Nat.not_lt_zero i), ?_⟩
  · simp [Paged.insert, Paged.new, Map.new, rbModifyMax, rbInsert]
  · simp [Seq.new, Seq.append, Seq.len]

theorem single_key_step {K V : Type} {S : Nat} [LinearOrder K] (k : K)
    (it : V) (q r : Nat) (t : Paged K V S)
    (hst : SingleKeyState S k q r t) :
    (r = S → SingleKeyState S k (q + 1) 1 (t.insert k it)) ∧
    (r ≠ S → SingleKeyState S k q (r + 1) (t.insert k it)) := by
  obtain ⟨seqs, hinner, hfull, hlen⟩ := hst
  have hstep := rbModifyMax_append_last PagedKey.key k
    (fun pk seq => if seq.len = S then (seq, some (pk.page + 1))
      else (seq.append it, none))
    ((List.range q).map (fun i => (⟨k, i⟩, seqs i))) ⟨k, q⟩ (seqs q) rfl
  constructor
  · intro hreq
    have hf : (fun (pk : PagedKey K) (seq : Seq V) =>
        if seq.len = S then (seq, some (pk.page + 1))
        else (seq.append it, none)) ⟨k, q⟩ (seqs q) = (seqs q, some (q + 1)) := by
      simp [hlen, hreq]
    rw [hf] at hstep
    have hins := rbInsert_append_gt (⟨k, q + 1⟩ : PagedKey K)
      (Seq.new.append it)
      (((List.range q).map (fun i => ((⟨k, i⟩ : PagedKey K), seqs i))) ++
        [(⟨k, q⟩, seqs q)])
      (by
        intro e he
        rcases List.mem_append.mp he with he | he
        · obtain ⟨i, hi, rfl⟩ := List.mem_map.mp he
          exact pagedKey_lt_same k (by
            have := List.mem_range.mp hi
            omega)
        · rcases List.mem_singleton.mp he with rfl
          exact pagedKey_lt_same k (by omega))
    refine ⟨fun i => if i = q + 1 then Seq.new.append it else seqs i, ?_, ?_, ?_⟩
    · show (t.insert k it).data.inner = _
      simp only [Paged.insert, hinner, hstep, hins]
      rw [List.range_succ]
      simp only [List.map_append, List.map_cons, List.map_nil]
      have hcongr : (List.range q).map
          (fun i => ((⟨k, i⟩ : PagedKey K),
            if i = q + 1 then Seq.new.append it else seqs i)) =
          (List.range q).map (fun i => ((⟨k, i⟩ : PagedKey K), seqs i)) := by
        refine List.map_congr_left fun i hi => ?_
        have := List.mem_range.mp hi
        simp [show i ≠ q + 1 by omega]
      rw [hcongr]
      simp [show ¬ (q = q + 1) by omega]
    · intro i hi
      rcases Nat.lt_succ_iff_lt_or_eq.mp hi with hi | hi
      · simp [show i ≠ q + 1 by omega, hfull i hi]
      · simp [hi, show ¬ (q = q + 1) by omega, hreq ▸ hlen]
    · simp [Seq.new, Seq.append, Seq.len]
  · intro hreq
    have hf : (fun (pk : PagedKey K) (seq : Seq V) =>
        if seq.len = S then (seq, some (pk.page + 1))
        else (seq.append it, none)) ⟨k, q⟩ (seqs q) =
        ((seqs q).append it, none) := by
      simp [hlen, hreq]
    rw [hf] at hstep
    refine ⟨fun i => if i = q then (seqs q).append it else seqs i, ?_, ?_, ?_⟩
    · show (t.insert k it).data.inner = _
      simp only [Paged.insert, hinner, hstep]
      have hcongr : (List.range q).map
          (fun i => ((⟨k, i⟩ : PagedKey K),
            if i = q then (seqs q).append it else seqs i)) =
          (List.range q).map (fun i => ((⟨k, i⟩ : PagedKey K), seqs i)) := by
        refine List.map_congr_left fun i hi => ?_
        have := List.mem_range.mp hi
        simp [show i ≠ q by omega]
      rw [hcongr]
      simp
    · intro i hi
      simp [show i ≠ q by omega, hfull i hi]
    · simp [Seq.len_append, hlen]

theorem pagedInsertSame_state {K V : Type} {S : Nat} [LinearOrder K]
    (hS : 1 ≤ S) (k : K) (items : List V) (hne : items ≠ []) :
    ∃ q r, SingleKeyState S k q r
        (pagedInsertSame (Paged.new : Paged K V S) k items) ∧
      items.length = q * S + r ∧ 1 ≤ r ∧ r ≤ S := by
  induction items using List.reverseRecOn with
  | nil => exact absurd rfl hne
  | append_singleton init x ih =>
    cases init with
    | nil =>
      refine ⟨0, 1, ?_, by simp, le_refl 1, hS⟩
      simpa [pagedInsertSame] using paged_insert_empty (S := S) k x
    | cons i0 irest =>
      obtain ⟨q, r, hst, hlen, hr1, hrS⟩ := ih (by simp)
      have hfold : pagedInsertSame (Paged.new : Paged K V S) k
          ((i0 :: irest) ++ [x]) =
          (pagedInsertSame (Paged.new : Paged K V S) k (i0 :: irest)).insert k x := by
        simp [pagedInsertSame, List.foldl_append]
      have hlen3 : ((i0 :: irest) ++ [x]).length = q * S + r + 1 := by
        rw [List.length_append, hlen]
        rfl
      by_cases hreq : r = S
      · refine ⟨q + 1, 1, ?_, ?_, le_refl 1, hS⟩
        · rw [hfold]
          exact (single_key_step k x q r _ hst).1 hreq
        · rw [hlen3, hreq]
          ring
      · refine ⟨q, r + 1, ?_, ?_, by omega, by omega⟩
        · rw [hfold]
          exact (single_key_step k x q r _ hst).2 hreq
        · rw [hlen3]
          ring

/-- C5 (amended).  For every page capacity `S ≥ 1`, inserting `S*2 + 1`
items under a single logical key into an empty `Paged<K,V,S>` yields
exactly 3 pages for that key — pages 0 and 1 with length `S` and page 2
with length 1 — and `get_last_page_number` returns 2. -/
theorem paged_paging_counts {K V : Type} [LinearOrder K] (S : Nat)
    (hS : 1 ≤ S) (k : K) (items : List V) (hlen : items.length = S * 2 + 1) :
    ((pagedInsertSame (Paged.new : Paged K V S) k items).data.inner.map
        (fun e => (e.1, e.2.len)) =
      [(⟨k, 0⟩, S), (⟨k, 1⟩, S), (⟨k, 2⟩, 1)]) ∧
    ((pagedInsertSame (Paged.new : Paged K V S) k items).getLastPageNumber k
      = some 2) := by
  have hne : items ≠ [] := by
    intro h
    rw [h] at hlen
    simp at hlen
  obtain ⟨q, r, ⟨seqs, hinner, hfull, hlenq⟩, hL, hr1, hrS⟩ :=
    pagedInsertSame_state hS k items hne
  have hEq : q * S + r = S * 2 + 1 := hL.symm.trans hlen
  have hq : q = 2 := by
    by_contra hne2
    rcases Nat.lt_or_ge q 2 with h | h
    · have h1 : q * S ≤ 1 * S := Nat.mul_le_mul_right S (by omega)
      rw [one_mul] at h1
      omega
    · have h3 : 3 ≤ q := by omega
      have h1 : 3 * S ≤ q * S := Nat.mul_le_mul_right S h3
      omega
  subst hq
  have hr : r = 1 := by
    have h2 : 2 * S + r = S * 2 + 1 := by
      rw [← hEq]
    omega
  subst hr
  constructor
  · rw [hinner]
    have h2 : List.range 2 = [0, 1] := by decide
    rw [h2]
    simp [hfull 0 (by omega), hfull 1 (by omega), hlenq]
  · show (rbMaxEntry PagedKey.key k _).map _ = some 2
    rw [hinner, rbMaxEntry_append_last PagedKey.key k _ ⟨k, 2⟩ (seqs 2) rfl]
    rfl

/-- Counterexample to C5 as stated for every `S`: at page capacity `S = 0`,
inserting `0*2 + 1 = 1` item under one key yields a single page (page 0),
not 3 pages, and `get_last_page_number` returns 0, not 2. -/
theorem paged_paging_counts_fails_at_zero :
    ((pagedInsertSame (Paged.new : Paged Nat Nat 0) 0 [42]).data.inner.length
      = 1) ∧
    ((pagedInsertSame (Paged.new : Paged Nat Nat 0) 0 [42]).getLastPageNumber 0
      = some 0) ∧
    ¬ ((pagedInsertSame (Paged.new : Paged Nat Nat 0) 0 [42]).getLastPageNumber 0
      = some 2) := by
  decide

/-- Witness for C5 (amended) at capacity 2 with five items. -/
theorem paged_paging_counts_witness :
    ((1 : Nat) ≤ 2) ∧
    (([10, 11, 12, 13, 14] : List Nat).length = 2 * 2 + 1) ∧
    ((pagedInsertSame (Paged.new : Paged Nat Nat 2) 1
        [10, 11, 12, 13, 14]).data.inner.map (fun e => (e.1, e.2.len)) =
      [(⟨1, 0⟩, 2), (⟨1, 1⟩, 2), (⟨1, 2⟩, 1)]) ∧
    ((pagedInsertSame (Paged.new : Paged Nat Nat 2) 1
        [10, 11, 12, 13, 14]).getLastPageNumber 1 = some 2) := by
  have h := paged_paging_counts (K := Nat) (V := Nat) 2 (by decide) 1
    [10, 11, 12, 13, 14] (by decide)
  exact ⟨by decide, by decide, h.1, h.2⟩

theorem rbMaxEntry_decomp {K V P : Type} [LinearOrder K] [DecidableEq P]
    (borrow : K → P) (p : P) (l1 l2 : List (K × V)) (e₀ : K × V)
    (hm : borrow e₀.1 = p) (hl2 : ∀ e ∈ l2, borrow e.1 ≠ p) :
    rbMaxEntry borrow p (l1 ++ e₀ :: l2) = some e₀ := by
  induction l1 with
  | nil =>
    obtain ⟨k₀, v₀⟩ := e₀
    have hrec := rbMaxEntry_none borrow p (V := V) l2 hl2
    simpa [rbMaxEntry, hrec] using hm
  | cons hd tl ih =>
    obtain ⟨k', v'⟩ := hd
    rw [List.cons_append]
    exact rbMaxEntry_cons_some borrow p k' v' _ _ ih

theorem alookup_ainsert_self {α : Type} (l : List (Nat × α)) (k : Nat)
    (v : α) : alookup (ainsert l k v) k = some v := by
  induction l with
  | nil => simp [ainsert, alookup]
  | cons hd tl ih =>
    obtain ⟨k', v'⟩ := hd
    by_cases h : k = k'
    · simp [ainsert, alookup, h]
    · simp [ainsert, alookup, h, ih]

theorem alookup_ainsert_ne {α : Type} (l : List (Nat × α)) (k k' : Nat)
    (v : α) (h : k' ≠ k) : alookup (ainsert l k v) k' = alookup l k' := by
  induction l with
  | nil => simp [ainsert, alookup, h]
  | cons hd tl ih =>
    obtain ⟨k₁, v₁⟩ := hd
    by_cases h1 : k = k₁
    · subst h1
      simp [ainsert, alookup, h]
    · by_cases h2 : k' = k₁
      · simp [ainsert, alookup, h1, h2]
      · simp [ainsert, alookup, h1, h2, ih]

theorem alookup_aremove_ne {α : Type} (l : List (Nat × α)) (k k' : Nat)
    (h : k' ≠ k) : alookup (aremove l k) k' = alookup l k' := by
  induction l with
  | nil => rfl
  | cons hd tl ih =>
    obtain ⟨k₁, v₁⟩ := hd
    by_cases h1 : k = k₁
    · subst h1
      simp [aremove, alookup, h]
    · by_cases h2 : k' = k₁
      · simp [aremove, alookup, h1, h2]
      · simp [aremove, alookup, h1, h2, ih]

theorem mem_tvInsert {x d : Nat} {tv : List Nat} :
    x ∈ Ray.tvInsert tv d ↔ x ∈ tv ∨ x = d := by
  by_cases h : d ∈ tv
  · simp only [Ray.tvInsert, h, if_pos]
    constructor
    · exact Or.inl
    · rintro (hx | rfl)
      · exact hx
      · exact h
  · simp only [Ray.tvInsert, h, if_neg, not_false_iff]
    constructor
    · rintro hx
      rcases List.mem_cons.mp hx with rfl | hx
      · exact Or.inr rfl
      · exact Or.inl hx
    · rintro (hx | rfl)
      · exact List.mem_cons_of_mem _ hx
      · exact List.mem_cons_self _ _

theorem mem_foldl_tvInsert (ds : List Nat) :
    ∀ (tv : List Nat) (x : Nat),
      x ∈ ds.foldl Ray.tvInsert tv ↔ x ∈ tv ∨ x ∈ ds := by
  induction ds with
  | nil => intro tv x; simp
  | cons d rest ih =>
    intro tv x
    rw [List.foldl_cons, ih]
    rw [mem_tvInsert]
    constructor
    · rintro ((hx | rfl) | hx)
      · exact Or.inl hx
      · exact Or.inr (List.mem_cons_self _ _)
      · exact Or.inr (List.mem_cons_of_mem _ hx)
    · rintro (hx | hx)
      · exact Or.inl (Or.inl hx)
      · rcases List.mem_cons.mp hx with rfl | hx
        · exact Or.inl (Or.inr rfl)
        · exact Or.inr hx

/-- `q` is the id path from the root of the shape node down to the leaf
carrying tag `tid` (verification helper, mirroring what `visit_node`
records in the dependency map). -/
def LeafPath : GroupNode → List Nat → Nat → Prop
  | .Leaf i t, q, tid => q = [i] ∧ t = tid
  | .Fork i l r, q, tid =>
    ∃ rest, q = i :: rest ∧ (LeafPath l rest tid ∨ LeafPath r rest tid)
  | .Labeled i _ c, q, tid => ∃ rest, q = i :: rest ∧ LeafPath c rest tid

theorem leaves_id_mem_idsOf : ∀ (n : GroupNode) (i t : Nat),
    (i, t) ∈ n.leaves → i ∈ n.idsOf := by
  intro n
  induction n with
  | Fork j l r ihl ihr =>
    intro i t h
    rcases List.mem_append.mp h with h | h
    · exact List.mem_cons_of_mem _ (List.mem_append_left _ (ihl i t h))
    · exact List.mem_cons_of_mem _ (List.mem_append_right _ (ihr i t h))
  | Labeled j lbl c ih =>
    intro i t h
    exact List.mem_cons_of_mem _ (ih i t h)
  | Leaf j t' =>
    intro i t h
    have h' : (i, t) = (j, t') := List.mem_singleton.mp h
    have hij : i = j := ((Prod.mk.injEq _ _ _ _).mp h').1
    simp [GroupNode.idsOf, hij]

theorem leafPath_sub_idsOf : ∀ (n : GroupNode) (q : List Nat) (tid : Nat),
    LeafPath n q tid → ∀ x ∈ q, x ∈ n.idsOf := by
  intro n
  induction n with
  | Fork j l r ihl ihr =>
    rintro q tid ⟨rest, rfl, h⟩ x hx
    rcases List.mem_cons.mp hx with rfl | hx
    · exact List.mem_cons_self _ _
    · rcases h with h | h
      · exact List.mem_cons_of_mem _
          (List.mem_append_left _ (ihl rest tid h x hx))
      · exact List.mem_cons_of_mem _
          (List.mem_append_right _ (ihr rest tid h x hx))
  | Labeled j lbl c ih =>
    rintro q tid ⟨rest, rfl, h⟩ x hx
    rcases List.mem_cons.mp hx with rfl | hx
    · exact List.mem_cons_self _ _
    · exact List.mem_cons_of_mem _ (ih rest tid h x hx)
  | Leaf j t' =>
    rintro q tid ⟨rfl, rfl⟩ x hx
    simpa [GroupNode.idsOf] using hx

/-- Id uniqueness: on a shape tree whose node ids are distinct, a leaf
whose id lies on the dependency path of tag `tid` must itself be the leaf
of tag `tid`. -/
theorem leafPath_unique : ∀ (n : GroupNode), n.idsOf.Nodup →
    ∀ (q : List Nat) (tid : Nat), LeafPath n q tid →
    ∀ (i t : Nat), (i, t) ∈ n.leaves → i ∈ q → t = tid := by
  intro n
  induction n with
  | Fork j l r ihl ihr =>
    rintro hnd q tid ⟨rest, rfl, h⟩ i t hmem hiq
    rw [GroupNode.idsOf, List.nodup_cons, List.nodup_append] at hnd
    obtain ⟨hj, hndl, hndr, hdisj⟩ := hnd
    rcases List.mem_cons.mp hiq with rfl | hiq
    · exfalso
      rcases List.mem_append.mp hmem with hm | hm
      · exact hj (List.mem_append_left _ (leaves_id_mem_idsOf l i t hm))
      · exact hj (List.mem_append_right _ (leaves_id_mem_idsOf r i t hm))
    · rcases h with h | h
      · rcases List.mem_append.mp hmem with hm | hm
        · exact ihl hndl rest tid h i t hm hiq
        · exfalso
          exact hdisj (leafPath_sub_idsOf l rest tid h i hiq)
            (leaves_id_mem_idsOf r i t hm)
      · rcases List.mem_append.mp hmem with hm | hm
        · exfalso
          exact hdisj (leaves_id_mem_idsOf l i t hm)
            (leafPath_sub_idsOf r rest tid h i hiq)
        · exact ihr hndr rest tid h i t hm hiq
  | Labeled j lbl c ih =>
    rintro hnd q tid ⟨rest, rfl, h⟩ i t hmem hiq
    rw [GroupNode.idsOf, List.nodup_cons] at hnd
    rcases List.mem_cons.mp hiq with rfl | hiq
    · exact absurd (leaves_id_mem_idsOf c i t hmem) hnd.1
    · exact ih hnd.2 rest tid h i t hmem hiq
  | Leaf j t' =>
    rintro hnd q tid ⟨rfl, rfl⟩ i t hmem hiq
    simp only [GroupNode.leaves] at hmem
    rcases List.mem_singleton.mp hmem with h
    exact ((Prod.mk.injEq _ _ _ _).mp h).2

theorem range'_add_split (s a b : Nat) :
    List.range' s (a + b) = List.range' s a ++ List.range' (s + a) b := by
  have h := List.range'_append s a b 1
  rw [one_mul] at h
  rw [Nat.add_comm a b]
  exact h.symm

theorem visit_node_Leaf (j tid s : Nat) (deps : List (Nat × List Nat))
    (path : List Nat) :
    (GroupNode.Leaf j tid).visit_node s deps path =
      (GroupNode.Leaf s tid, s + 1, ainsert deps tid (path ++ [s])) := rfl

theorem visit_node_Fork (j : Nat) (l r : GroupNode) (s : Nat)
    (deps : List (Nat × List Nat)) (path : List Nat) :
    (GroupNode.Fork j l r).visit_node s deps path =
      (GroupNode.Fork s (l.visit_node (s + 1) deps (path ++ [s])).1
        (r.visit_node (l.visit_node (s + 1) deps (path ++ [s])).2.1
          (l.visit_node (s + 1) deps (path ++ [s])).2.2 (path ++ [s])).1,
        (r.visit_node (l.visit_node (s + 1) deps (path ++ [s])).2.1
          (l.visit_node (s + 1) deps (path ++ [s])).2.2 (path ++ [s])).2.1,
        (r.visit_node (l.visit_node (s + 1) deps (path ++ [s])).2.1
          (l.visit_node (s + 1) deps (path ++ [s])).2.2 (path ++ [s])).2.2) := by
  cases hL : l.visit_node (s + 1) deps (path ++ [s]) with
  | mk l' rest =>
    cases rest with
    | mk n1 d1 =>
      cases hR : r.visit_node n1 d1 (path ++ [s]) with
      | mk r' rest2 =>
        cases rest2 with
        | mk n2 d2 => simp [GroupNode.visit_node, hL, hR]

theorem visit_node_Labeled (j : Nat) (lbl : List Nat) (c : GroupNode)
    (s : Nat) (deps : List (Nat × List Nat)) (path : List Nat) :
    (GroupNode.Labeled j lbl c).visit_node s deps path =
      (GroupNode.Labeled s lbl (c.visit_node (s + 1) deps (path ++ [s])).1,
        (c.visit_node (s + 1) deps (path ++ [s])).2.1,
        (c.visit_node (s + 1) deps (path ++ [s])).2.2) := by
  cases hC : c.visit_node (s + 1) deps (path ++ [s]) with
  | mk c' rest =>
    cases rest with
    | mk n1 d1 => simp [GroupNode.visit_node, hC]

theorem visit_facts : ∀ (n : GroupNode) (s : Nat)
    (deps : List (Nat × List Nat)) (path : List Nat),
    ((n.visit_node s deps path).2.1 = s + n.size) ∧
    ((n.visit_node s deps path).1.idsOf = List.range' s n.size) ∧
    ((n.visit_node s deps path).1.leafTids = n.leafTids) ∧
    (∀ tid, tid ∉ n.leafTids →
      alookup (n.visit_node s deps path).2.2 tid = alookup deps tid) ∧
    (n.leafTids.Nodup → ∀ tid ∈ n.leafTids,
      ∃ q, alookup (n.visit_node s deps path).2.2 tid = some (path ++ q) ∧
        LeafPath (n.visit_node s deps path).1 q tid) := by
  intro n
  induction n with
  | Leaf j tid =>
    intro s deps path
    rw [visit_node_Leaf]
    refine ⟨rfl, by simp [GroupNode.idsOf, GroupNode.size, List.range'], rfl,
      ?_, ?_⟩
    · intro tid' h
      have : tid' ≠ tid := by
        simpa [GroupNode.leafTids] using h
      exact alookup_ainsert_ne deps tid tid' _ this
    · intro _ tid' h
      have : tid' = tid := by
        simpa [GroupNode.leafTids] using h
      subst this
      exact ⟨[s], alookup_ainsert_self deps tid' _, rfl, rfl⟩
  | Labeled j lbl c ih =>
    intro s deps path
    rw [visit_node_Labeled]
    obtain ⟨ih1, ih2, ih3, ih4, ih5⟩ := ih (s + 1) deps (path ++ [s])
    refine ⟨?_, ?_, ?_, ?_, ?_⟩
    · simp only [ih1, GroupNode.size]
      omega
    · simp only [GroupNode.idsOf, ih2, GroupNode.size]
      have hsz : 1 + c.size = c.size + 1 := by omega
      rw [hsz, List.range'_succ]
    · simpa [GroupNode.leafTids] using ih3
    · intro tid h
      exact ih4 tid (by simpa [GroupNode.leafTids] using h)
    · intro hnd tid h
      have h' : tid ∈ c.leafTids := by simpa [GroupNode.leafTids] using h
      have hnd' : c.leafTids.Nodup := by
        simpa [GroupNode.leafTids] using hnd
      obtain ⟨q, hq, hLP⟩ := ih5 hnd' tid h'
      refine ⟨s :: q, ?_, ⟨q, rfl, hLP⟩⟩
      rw [hq]
      simp
  | Fork j l r ihl ihr =>
    intro s deps path
    rw [visit_node_Fork]
    obtain ⟨al1, al2, al3, al4, al5⟩ := ihl (s + 1) deps (path ++ [s])
    obtain ⟨br1, br2, br3, br4, br5⟩ := ihr
      ((l.visit_node (s + 1) deps (path ++ [s])).2.1)
      ((l.visit_node (s + 1) deps (path ++ [s])).2.2) (path ++ [s])
    rw [al1] at br1 br2 br3 br4 br5
    rw [al1]
    refine ⟨?_, ?_, ?_, ?_, ?_⟩
    · rw [br1]
      simp only [GroupNode.size]
      omega
    · simp only [GroupNode.idsOf, al2, br2, GroupNode.size]
      have hsz : 1 + l.size + r.size = (l.size + r.size) + 1 := by omega
      rw [hsz, List.range'_succ, range'_add_split (s + 1) l.size r.size]
    · simp [GroupNode.leafTids, al3, br3]
    · intro tid h
      simp only [GroupNode.leafTids, List.mem_append] at h
      push_neg at h
      rw [br4 tid h.2, al4 tid h.1]
    · intro hnd tid h
      simp only [GroupNode.leafTids, List.nodup_append] at hnd
      obtain ⟨hndl, hndr, hdisj⟩ := hnd
      simp only [GroupNode.leafTids, List.mem_append] at h
      rcases h with h | h
      · have hnr : tid ∉ r.leafTids := fun hc => hdisj h hc
        obtain ⟨q, hq, hLP⟩ := al5 hndl tid h
        refine ⟨s :: q, ?_, ⟨q, rfl, Or.inl hLP⟩⟩
        rw [br4 tid hnr, hq]
        simp
      · obtain ⟨q, hq, hLP⟩ := br5 hndr tid h
        refine ⟨s :: q, ?_, ⟨q, rfl, Or.inr hLP⟩⟩
        rw [hq]
        simp

theorem alookup_mem {α : Type} (l : List (Nat × α)) (k : Nat) (v : α)
    (h : alookup l k = some v) : (k, v) ∈ l := by
  induction l with
  | nil => exact absurd h (by simp [alookup])
  | cons hd tl ih =>
    obtain ⟨k', v'⟩ := hd
    by_cases hk : k = k'
    · subst hk
      simp only [alookup, if_pos rfl] at h
      simp [← Option.some_injective _ h]
    · simp only [alookup, hk, if_neg, not_false_iff] at h
      exact List.mem_cons_of_mem _ (ih h)

theorem mem_aremove_sub {α : Type} (l : List (Nat × α)) (k : Nat)
    (e : Nat × α) (h : e ∈ aremove l k) : e ∈ l := by
  induction l with
  | nil => exact absurd h (by simp [aremove])
  | cons hd tl ih =>
    obtain ⟨k', v'⟩ := hd
    by_cases hk : k = k'
    · subst hk
      simp only [aremove, if_pos rfl] at h
      exact List.mem_cons_of_mem _ h
    · simp only [aremove, hk, if_neg, not_false_iff] at h
      rcases List.mem_cons.mp h with rfl | h
      · exact List.mem_cons_self _ _
      · exact List.mem_cons_of_mem _ (ih h)

theorem mem_ainsert {α : Type} (l : List (Nat × α)) (k : Nat) (v : α)
    (e : Nat × α) (h : e ∈ ainsert l k v) : e = (k, v) ∨ e ∈ l := by
  induction l with
  | nil => simpa [ainsert] using h
  | cons hd tl ih =>
    obtain ⟨k', v'⟩ := hd
    by_cases hk : k = k'
    · subst hk
      simp only [ainsert, if_pos rfl] at h
      rcases List.mem_cons.mp h with rfl | h
      · exact Or.inl rfl
      · exact Or.inr (List.mem_cons_of_mem _ h)
    · simp only [ainsert, hk, if_neg, not_false_iff] at h
      rcases List.mem_cons.mp h with rfl | h
      · exact Or.inr (List.mem_cons_self _ _)
      · rcases ih h with h | h
        · exact Or.inl h
        · exact Or.inr (List.mem_cons_of_mem _ h)

theorem leaves_tid_mem : ∀ (n : GroupNode) (i t : Nat),
    (i, t) ∈ n.leaves → t ∈ n.leafTids := by
  intro n
  induction n with
  | Fork j l r ihl ihr =>
    intro i t h
    rcases List.mem_append.mp h with h | h
    · exact List.mem_append_left _ (ihl i t h)
    · exact List.mem_append_right _ (ihr i t h)
  | Labeled j lbl c ih =>
    intro i t h
    exact ih i t h
  | Leaf j t' =>
    intro i t h
    have h' : (i, t) = (j, t') := List.mem_singleton.mp h
    simp [GroupNode.leafTids, ((Prod.mk.injEq _ _ _ _).mp h').2]

theorem root_hash_some : ∀ (n : GroupNode) (data : List (Nat × LeafData)),
    (∀ tid ∈ n.leafTids, ∃ ld, alookup data tid = some ld) →
    ∃ h, GroupNode.root_hash data n = some h := by
  intro n
  induction n with
  | Fork j l r ihl ihr =>
    intro data hd
    obtain ⟨hl, hLe⟩ := ihl data fun tid ht =>
      hd tid (List.mem_append_left _ ht)
    obtain ⟨hr, hRe⟩ := ihr data fun tid ht =>
      hd tid (List.mem_append_right _ ht)
    exact ⟨fork_hash hl hr, by simp [GroupNode.root_hash, hLe, hRe]⟩
  | Labeled j lbl c ih =>
    intro data hd
    obtain ⟨h, he⟩ := ih data fun tid ht => hd tid ht
    exact ⟨labeled_hash lbl h, by simp [GroupNode.root_hash, he]⟩
  | Leaf j tid =>
    intro data hd
    obtain ⟨ld, hld⟩ := hd tid (List.mem_singleton.mpr rfl)
    exact ⟨ld.rh, by simp [GroupNode.root_hash, hld]⟩

theorem witness_all_reconstruct : ∀ (n : GroupNode)
    (data : List (Nat × LeafData)),
    (∀ tid ∈ n.leafTids, ∃ ld, alookup data tid = some ld) →
    (∀ tid ld, alookup data tid = some ld → ld.ht.reconstruct = ld.rh) →
    ∃ t h, GroupNode.witness_all data n = some t ∧
      GroupNode.root_hash data n = some h ∧ t.reconstruct = h := by
  intro n
  induction n with
  | Fork j l r ihl ihr =>
    intro data hd hlaw
    obtain ⟨tl', hl, htl, hhl, hrl⟩ := ihl data
      (fun tid ht => hd tid (List.mem_append_left _ ht)) hlaw
    obtain ⟨tr', hr, htr, hhr, hrr⟩ := ihr data
      (fun tid ht => hd tid (List.mem_append_right _ ht)) hlaw
    refine ⟨HashTree.Fork tl' tr', fork_hash hl hr, ?_, ?_, ?_⟩
    · simp [GroupNode.witness_all, htl, htr]
    · simp [GroupNode.root_hash, hhl, hhr]
    · simp [HashTree.reconstruct, hrl, hrr]
  | Labeled j lbl c ih =>
    intro data hd hlaw
    obtain ⟨t', h, ht, hh, hr⟩ := ih data (fun tid ht => hd tid ht) hlaw
    refine ⟨HashTree.Labeled lbl t', labeled_hash lbl h, ?_, ?_, ?_⟩
    · simp [GroupNode.witness_all, ht]
    · simp [GroupNode.root_hash, hh]
    · simp [HashTree.reconstruct, hr]
  | Leaf j tid =>
    intro data hd hlaw
    obtain ⟨ld, hld⟩ := hd tid (List.mem_singleton.mpr rfl)
    refine ⟨ld.ht, ld.rh, ?_, ?_, hlaw tid ld hld⟩
    · simp [GroupNode.witness_all, hld]
    · simp [GroupNode.root_hash, hld]

theorem witness_walk : ∀ (n : GroupNode) (data : List (Nat × LeafData))
    (ray : RayState),
    (∀ tid ∈ n.leafTids, ∃ ld, alookup data tid = some ld) →
    n.leafTids.Nodup →
    (∀ i t, (i, t) ∈ n.leaves → i ∈ ray.to_visit →
      ∃ tr, alookup ray.leaves t = some tr) →
    (∀ t tr, (t, tr) ∈ ray.leaves →
      ∃ ld, alookup data t = some ld ∧ tr.reconstruct = ld.rh) →
    ∃ t' ray' h, GroupNode.witness data n ray = some (t', ray') ∧
      GroupNode.root_hash data n = some h ∧ t'.reconstruct = h ∧
      ray'.to_visit = ray.to_visit ∧
      (∀ t, t ∉ n.leafTids →
        alookup ray'.leaves t = alookup ray.leaves t) ∧
      (∀ t tr, (t, tr) ∈ ray'.leaves →
        ∃ ld, alookup data t = some ld ∧ tr.reconstruct = ld.rh) := by
  intro n
  induction n with
  | Fork j l r ihl ihr =>
    intro data ray hd hnd hcover hsound
    by_cases hj : j ∈ ray.to_visit
    · simp only [GroupNode.leafTids, List.nodup_append] at hnd
      obtain ⟨hndl, hndr, hdisj⟩ := hnd
      obtain ⟨tl', ray1, hl, hwl, hhl, hrl, htv1, hpres1, hsound1⟩ :=
        ihl data ray (fun tid ht => hd tid (List.mem_append_left _ ht)) hndl
          (fun i t hm hi => hcover i t (List.mem_append_left _ hm) hi) hsound
      have hcover2 : ∀ i t, (i, t) ∈ r.leaves → i ∈ ray1.to_visit →
          ∃ tr, alookup ray1.leaves t = some tr := by
        intro i t hm hi
        rw [htv1] at hi
        have htid : t ∈ r.leafTids := leaves_tid_mem r i t hm
        have hnl : t ∉ l.leafTids := fun hc => hdisj hc htid
        rw [hpres1 t hnl]
        exact hcover i t (List.mem_append_right _ hm) hi
      obtain ⟨tr', ray2, hr, hwr, hhr, hrr, htv2, hpres2, hsound2⟩ :=
        ihr data ray1 (fun tid ht => hd tid (List.mem_append_right _ ht)) hndr
          hcover2 hsound1
      refine ⟨HashTree.Fork tl' tr', ray2, fork_hash hl hr, ?_, ?_, ?_, ?_,
        ?_, hsound2⟩
      · simp [GroupNode.witness, hj, hwl, hwr]
      · simp [GroupNode.root_hash, hhl, hhr]
      · simp [HashTree.reconstruct, hrl, hrr]
      · rw [htv2, htv1]
      · intro t ht
        simp only [GroupNode.leafTids, List.mem_append] at ht
        push_neg at ht
        rw [hpres2 t ht.2, hpres1 t ht.1]
    · obtain ⟨h, hh⟩ := root_hash_some (GroupNode.Fork j l r) data hd
      refine ⟨HashTree.Pruned h, ray, h, ?_, hh, rfl, rfl, fun _ _ => rfl,
        hsound⟩
      simp [GroupNode.witness, hj, hh]
  | Labeled j lbl c ih =>
    intro data ray hd hnd hcover hsound
    by_cases hj : j ∈ ray.to_visit
    · obtain ⟨t', ray1, h, hw, hh, hr, htv, hpres, hsound1⟩ :=
        ih data ray (fun tid ht => hd tid ht) hnd
          (fun i t hm hi => hcover i t hm hi) hsound
      refine ⟨HashTree.Labeled lbl t', ray1, labeled_hash lbl h, ?_, ?_, ?_,
        htv, hpres, hsound1⟩
      · simp [GroupNode.witness, hj, hw]
      · simp [GroupNode.root_hash, hh]
      · simp [HashTree.reconstruct, hr]
    · obtain ⟨h, hh⟩ := root_hash_some (GroupNode.Labeled j lbl c) data hd
      refine ⟨HashTree.Pruned h, ray, h, ?_, hh, rfl, rfl, fun _ _ => rfl,
        hsound⟩
      simp [GroupNode.witness, hj, hh]
  | Leaf j tid =>
    intro data ray hd hnd hcover hsound
    by_cases hj : j ∈ ray.to_visit
    · obtain ⟨tr, htr⟩ := hcover j tid (List.mem_singleton.mpr rfl) hj
      obtain ⟨ld, hld, hrc⟩ := hsound tid tr (alookup_mem _ _ _ htr)
      refine ⟨tr, ⟨ray.to_visit, aremove ray.leaves tid⟩, ld.rh, ?_, ?_, hrc,
        rfl, ?_, ?_⟩
      · simp [GroupNode.witness, hj, htr]
      · simp [GroupNode.root_hash, hld]
      · intro t ht
        have : t ≠ tid := by simpa [GroupNode.leafTids] using ht
        exact alookup_aremove_ne _ _ _ this
      · intro t tr' hm
        exact hsound t tr' (mem_aremove_sub _ _ _ hm)
    · obtain ⟨ld, hld⟩ := hd tid (List.mem_singleton.mpr rfl)
      refine ⟨HashTree.Pruned ld.rh, ray, ld.rh, ?_, ?_, rfl, rfl,
        fun _ _ => rfl, hsound⟩
      · simp [GroupNode.witness, hj, GroupNode.root_hash, hld]
      · simp [GroupNode.root_hash, hld]

/-- The invariant maintained by `full`/`partial` marking: every stored
override reconstructs to its leaf's registered root hash, and every leaf
whose id entered the keep set has a stored override. -/
def RayOk (g : Group) (ray : RayState) : Prop :=
  (∀ t tr, (t, tr) ∈ ray.leaves →
    ∃ ld, alookup g.data t = some ld ∧ tr.reconstruct = ld.rh) ∧
  (∀ i t, (i, t) ∈ g.root.leaves → i ∈ ray.to_visit →
    ∃ tr, alookup ray.leaves t = some tr)

theorem rayOk_new (g : Group) : RayOk g Ray.new := by
  constructor
  · intro t tr h
    exact absurd h (List.not_mem_nil _)
  · intro i t _ hi
    exact absurd hi (List.not_mem_nil _)

theorem rayOk_mark (g : Group) (ray ray' : RayState) (tid : Nat)
    (hids : g.root.idsOf.Nodup)
    (hdeps : ∀ tid q, alookup g.dependencies tid = some q →
      LeafPath g.root q tid)
    (hOk : RayOk g ray) (q : List Nat)
    (hdq : alookup g.dependencies tid = some q)
    (tree : HashTree)
    (htree : ∃ ld, alookup g.data tid = some ld ∧ tree.reconstruct = ld.rh)
    (hray : ray' = ⟨q.foldl Ray.tvInsert ray.to_visit,
      ainsert ray.leaves tid tree⟩) : RayOk g ray' := by
  subst hray
  constructor
  · intro t tr hm
    rcases mem_ainsert _ _ _ _ hm with h | h
    · obtain ⟨h1, h2⟩ := (Prod.mk.injEq _ _ _ _).mp h
      subst h1
      subst h2
      exact htree
    · exact hOk.1 t tr h
  · intro i t hm hi
    rw [mem_foldl_tvInsert] at hi
    rcases hi with hi | hi
    · obtain ⟨tr, htr⟩ := hOk.2 i t hm hi
      by_cases ht : t = tid
      · subst ht
        exact ⟨tree, alookup_ainsert_self _ _ _⟩
      · exact ⟨tr, by rw [alookup_ainsert_ne _ _ _ _ ht]; exact htr⟩
    · have hLP := hdeps tid q hdq
      have := leafPath_unique g.root hids q tid hLP i t hm hi
      subst this
      exact ⟨tree, alookup_ainsert_self _ _ _⟩

theorem applySelections_rayOk (g : Group)
    (hids : g.root.idsOf.Nodup)
    (hdeps : ∀ tid q, alookup g.dependencies tid = some q →
      LeafPath g.root q tid)
    (hlaw : ∀ tid ld, alookup g.data tid = some ld →
      ld.ht.reconstruct = ld.rh) :
    ∀ (sels : List Selection) (ray ray' : RayState), RayOk g ray →
    (∀ tid tree, Selection.part tid tree ∈ sels →
      ∀ ld, alookup g.data tid = some ld → tree.reconstruct = ld.rh) →
    applySelections g sels ray = some ray' → RayOk g ray' := by
  intro sels
  induction sels with
  | nil =>
    intro ray ray' hOk _ hE
    simp only [applySelections] at hE
    rw [← Option.some_injective _ hE]
    exact hOk
  | cons sel rest ih =>
    intro ray ray' hOk hparts hE
    cases sel with
    | full tid =>
      simp only [applySelections] at hE
      cases hdq : alookup g.dependencies tid with
      | none => simp [Ray.full, hdq] at hE
      | some q =>
        cases hld : alookup g.data tid with
        | none => simp [Ray.full, hdq, hld] at hE
        | some ld =>
          have hstep : Ray.full g ray tid =
              some ⟨q.foldl Ray.tvInsert ray.to_visit,
                ainsert ray.leaves tid ld.ht⟩ := by
            simp [Ray.full, hdq, hld]
          rw [hstep] at hE
          refine ih _ ray' ?_ (fun tid' tree' hm ld' =>
            hparts tid' tree' (List.mem_cons_of_mem _ hm) ld') hE
          exact rayOk_mark g ray _ tid hids hdeps hOk q hdq ld.ht
            ⟨ld, hld, hlaw tid ld hld⟩ rfl
    | part tid tree =>
      simp only [applySelections] at hE
      cases hdq : alookup g.dependencies tid with
      | none => simp [Ray.part, hdq] at hE
      | some q =>
        cases hld : alookup g.data tid with
        | none => simp [Ray.part, hdq, hld] at hE
        | some ld =>
          have hstep : Ray.part g ray tid tree =
              some ⟨q.foldl Ray.tvInsert ray.to_visit,
                ainsert ray.leaves tid tree⟩ := by
            simp [Ray.part, hdq, hld]
          rw [hstep] at hE
          refine ih _ ray' ?_ (fun tid' tree' hm ld' =>
            hparts tid' tree' (List.mem_cons_of_mem _ hm) ld') hE
          exact rayOk_mark g ray _ tid hids hdeps hOk q hdq tree
            ⟨ld, hld, hparts tid tree (List.mem_cons_self _ _) ld hld⟩ rfl

/-- C1.  Witness soundness / pruning equivalence: for every group (shape
tags unique, registry covering the shape, leaves honouring the certifiable
contract) and every chain of `Ray::full`/`Ray::partial` calls touching any
subset of the leaves (each partial override reconstructing to its leaf's
root hash, as produced by the leaf's own witness API), `build()` succeeds
and its result reconstructs to the same hash as the fully expanded
`as_hash_tree()` — the group's root hash; pruning never changes the root
hash. -/
theorem group_witness_soundness (g₀ : Group)
    (hnd : g₀.root.leafTids.Nodup)
    (hdata : ∀ tid ∈ g₀.root.leafTids, ∃ ld, alookup g₀.data tid = some ld)
    (hlaw : ∀ tid ld, alookup g₀.data tid = some ld →
      ld.ht.reconstruct = ld.rh)
    (sels : List Selection)
    (hparts : ∀ tid tree, Selection.part tid tree ∈ sels →
      ∀ ld, alookup (Group.init g₀).data tid = some ld →
        tree.reconstruct = ld.rh)
    (ray : RayState)
    (hsel : applySelections (Group.init g₀) sels Ray.new = some ray) :
    ∃ h tfull tw,
      Group.root_hash (Group.init g₀) = some h ∧
      Group.as_hash_tree (Group.init g₀) = some tfull ∧
      Ray.build (Group.init g₀) ray = some tw ∧
      tw.reconstruct = h ∧ tfull.reconstruct = h := by
  obtain ⟨f1, f2, f3, f4, f5⟩ := visit_facts g₀.root 0 [] []
  have hroot : (Group.init g₀).root = (g₀.root.visit_node 0 [] []).1 := rfl
  have hdeps' : (Group.init g₀).dependencies =
      (g₀.root.visit_node 0 [] []).2.2 := rfl
  have hdata' : (Group.init g₀).data = g₀.data := rfl
  have hids : (Group.init g₀).root.idsOf.Nodup := by
    rw [hroot, f2]
    exact List.nodup_range' _ _
  have htids : (Group.init g₀).root.leafTids = g₀.root.leafTids := by
    rw [hroot, f3]
  have hdataG : ∀ tid ∈ (Group.init g₀).root.leafTids,
      ∃ ld, alookup (Group.init g₀).data tid = some ld := by
    rw [htids, hdata']
    exact hdata
  have hndG : (Group.init g₀).root.leafTids.Nodup := by
    rw [htids]
    exact hnd
  have hdepsG : ∀ tid q,
      alookup (Group.init g₀).dependencies tid = some q →
      LeafPath (Group.init g₀).root q tid := by
    intro tid q hq
    rw [hdeps'] at hq
    by_cases hmem : tid ∈ g₀.root.leafTids
    · obtain ⟨q₀, hq₀, hLP⟩ := f5 hnd tid hmem
      rw [hq₀] at hq
      have : q₀ = q := by simpa using hq
      subst this
      exact hLP
    · rw [f4 tid hmem] at hq
      exact absurd hq (by simp [alookup])
  have hOk : RayOk (Group.init g₀) ray :=
    applySelections_rayOk (Group.init g₀) hids hdepsG
      (by rw [hdata']; exact hlaw) sels Ray.new ray
      (rayOk_new _) hparts hsel
  obtain ⟨tw, ray', h, hwit, hrh, hrec, _, _, _⟩ :=
    witness_walk (Group.init g₀).root (Group.init g₀).data ray hdataG hndG
      hOk.2 hOk.1
  obtain ⟨tfull, h₂, hall, hrh₂, hrec₂⟩ :=
    witness_all_reconstruct (Group.init g₀).root (Group.init g₀).data hdataG
      (by rw [hdata']; exact hlaw)
  have hh : h₂ = h := by
    have := hrh₂.symm.trans hrh
    simpa using this
  refine ⟨h, tfull, tw, hrh, hall, ?_, hrec, hh ▸ hrec₂⟩
  show ((Group.init g₀).root.witness (Group.init g₀).data ray).map
    (fun p => p.1) = some tw
  rw [hwit]
  rfl

/-- The pre-`init` form of the test group used to instantiate C1. -/
def g₀Example : Group :=
  ⟨GroupNode.Fork 0 (GroupNode.Labeled 0 [65] (GroupNode.Leaf 0 1))
      (GroupNode.Leaf 0 2),
    [(1, ⟨Hash.labeled [88] (Hash.leaf [17]),
      HashTree.Labeled [88] (HashTree.Leaf [17])⟩),
     (2, ⟨Hash.leaf [42], HashTree.Leaf [42]⟩)], []⟩

/-- A concrete selection chain: full disclosure of the scalar leaf and a
partial (pruned) witness of the map-like leaf. -/
def selsExample : List Selection :=
  [Selection.full 2,
    Selection.part 1 (HashTree.Pruned (Hash.labeled [88] (Hash.leaf [17])))]

/-- The ray state those selections produce. -/
def rayExample : RayState :=
  ⟨[2, 1, 3, 0], [(2, HashTree.Leaf [42]),
    (1, HashTree.Pruned (Hash.labeled [88] (Hash.leaf [17])))]⟩

/-- Witness for C1 at the concrete test group and selections. -/
theorem group_witness_soundness_witness :
    (Ray.build (Group.init g₀Example) rayExample).map HashTree.reconstruct =
      (Group.as_hash_tree (Group.init g₀Example)).map HashTree.reconstruct ∧
    (Ray.build (Group.init g₀Example) rayExample).isSome = true ∧
    (Group.as_hash_tree (Group.init g₀Example)).isSome = true := by
  have hnd : g₀Example.root.leafTids.Nodup := by decide
  have hdata : ∀ tid ∈ g₀Example.root.leafTids,
      ∃ ld, alookup g₀Example.data tid = some ld := by
    intro tid ht
    have h12 : tid = 1 ∨ tid = 2 := by
      simpa [g₀Example, GroupNode.leafTids] using ht
    rcases h12 with rfl | rfl
    · exact ⟨_, rfl⟩
    · exact ⟨_, rfl⟩
  have hlaw : ∀ tid ld, alookup g₀Example.data tid = some ld →
      ld.ht.reconstruct = ld.rh := by
    intro tid ld h
    by_cases h1 : tid = 1
    · subst h1
      simp [g₀Example, alookup] at h
      subst h
      decide
    · by_cases h2 : tid = 2
      · subst h2
        simp [g₀Example, alookup, h1] at h
        subst h
        decide
      · simp [g₀Example, alookup, h1, h2] at h
  have hparts : ∀ tid tree, Selection.part tid tree ∈ selsExample →
      ∀ ld, alookup (Group.init g₀Example).data tid = some ld →
      tree.reconstruct = ld.rh := by
    intro tid tree hm ld hld
    have : tid = 1 ∧
        tree = HashTree.Pruned (Hash.labeled [88] (Hash.leaf [17])) := by
      simpa [selsExample] using hm
    obtain ⟨rfl, rfl⟩ := this
    have hld' : alookup g₀Example.data 1 = some ld := hld
    simp [g₀Example, alookup] at hld'
    subst hld'
    decide
  have hsel : applySelections (Group.init g₀Example) selsExample Ray.new =
      some rayExample := by decide
  obtain ⟨h, tfull, tw, hrh, hall, hbuild, hrec, hrec2⟩ :=
    group_witness_soundness g₀Example hnd hdata hlaw selsExample hparts
      rayExample hsel
  rw [hbuild, hall]
  simp [hrec, hrec2]

end CertifiedVars
